import Mathlib

/-!
Verification development for the context-compression-engine repository.

The repository snapshot contains the documentation (docs/*.md), the end-to-end
test suite (e2e/smoke.mjs), and the benchmark harness (bench/baseline.ts), but
the core implementation files (src/compress.ts, src/expand.ts, src/classify.ts,
src/summarize.ts, src/types.ts) are not present.  The engine is therefore
modelled here from the specification and from the documentation pages that
quote fragments of the source (docs/provenance.md quotes makeSummaryId and
collectParentIds verbatim).  Every such definition carries a doc comment
starting with the words Modelled from the spec, naming what is missing and
which details are approximated.

Conventions of the embedding:
- strings are Lean strings; lengths count unicode scalar values (the source
  counts UTF-16 code units; the two agree outside the astral planes);
- machine arithmetic is Nat with explicit reduction mod 2^32 where the source
  uses unsigned 32-bit arithmetic (djb2);
- the pluggable token counter is a function field of the options record;
- the asynchronous LLM summarizer path is out of scope (the spec lists it as
  an external capability); the sync deterministic path is modelled.
-/

set_option maxRecDepth 10000

/-- Decimal digit characters with explicit recursion fuel (any fuel above
the number suffices; the fuel keeps the definition structurally recursive
so it evaluates inside the kernel). -/
def decCharsAux : Nat → Nat → List Char
  | 0, _ => []
  | fuel + 1, n =>
    if n < 10 then [Char.ofNat (48 + n)]
    else decCharsAux fuel (n / 10) ++ [Char.ofNat (48 + n % 10)]

/-- Decimal digit characters of a natural number, most significant first.
Modelled from the spec: the source renders numbers with the JavaScript
default decimal conversion; this is the same decimal rendering. -/
def decChars (n : Nat) : List Char := decCharsAux (n + 1) n

/-- Decimal rendering of a natural number. -/
def dec (n : Nat) : String := ⟨decChars n⟩

/-- Joins a list of strings with a separator, like the JavaScript join. -/
def joinSep (sep : String) : List String → String
  | [] => ""
  | [x] => x
  | x :: y :: xs => x ++ sep ++ joinSep sep (y :: xs)

/-- Lowercase base-36 digit for a value below 36, as produced by the
JavaScript Number.toString(36). -/
def base36Digit (n : Nat) : Char :=
  if n < 10 then Char.ofNat (48 + n) else Char.ofNat (87 + n)

/-- Base-36 digit list with explicit recursion fuel. -/
def base36CharsAux : Nat → Nat → List Char
  | 0, _ => []
  | fuel + 1, n =>
    if n < 36 then [base36Digit n]
    else base36CharsAux fuel (n / 36) ++ [base36Digit (n % 36)]

/-- Base-36 digit list of a natural number, most significant first. -/
def base36Chars (n : Nat) : List Char := base36CharsAux (n + 1) n

/-- Lowercase base-36 rendering of a natural number, as the JavaScript
Number.toString(36) produces for a non-negative integer. -/
def base36 (n : Nat) : String := ⟨base36Chars n⟩

/-- The djb2 hash of a string: initial value 5381, per character
h = h * 33 + code, reduced to unsigned 32 bits.  Quoted in
docs/provenance.md (makeSummaryId).  The source iterates UTF-16 code units
(charCodeAt); this model iterates unicode scalar values, which agree for
all characters below U+10000. -/
def djb2 (s : String) : Nat :=
  s.data.foldl (fun h c => (h * 33 + c.toNat) % 4294967296) 5381

/-- Stable ordered insert of the insertion sort. -/
def insertOrd {α : Type} (le : α → α → Bool) (x : α) : List α → List α
  | [] => [x]
  | y :: ys => if le x y then x :: y :: ys else y :: insertOrd le x ys

/-- Stable insertion sort.  The JavaScript Array.sort is stable, and a
stable sort under a total preorder is unique, so this reproduces the
ordering of the missing source. -/
def sortBy {α : Type} (le : α → α → Bool) : List α → List α
  | [] => []
  | x :: xs => insertOrd le x (sortBy le xs)

/-- Lexicographic order on character lists by scalar value, as the
JavaScript string comparison orders code units (the orders agree below
U+10000). -/
def strLeAux : List Char → List Char → Bool
  | [], _ => true
  | _ :: _, [] => false
  | a :: as, b :: bs =>
    if a.toNat < b.toNat then true
    else if b.toNat < a.toNat then false
    else strLeAux as bs

/-- Lexicographic order on strings. -/
def strLe (a b : String) : Bool := strLeAux a.data b.data

/-- Sorts a list of strings ascending, as the JavaScript Array.sort does for
strings (lexicographic; code-unit order and scalar-value order agree below
U+10000). -/
def sortStrings (l : List String) : List String :=
  sortBy strLe l

/-- Builds the deterministic summary id from the covered original ids.
Quoted in docs/provenance.md: the key is the single id, or the sorted ids
joined by the NUL character; the id is cce_sum_ followed by the lowercase
base-36 rendering of the 32-bit unsigned djb2 hash of the key. -/
def mkSummaryId (ids : List String) : String :=
  let key := if ids.length = 1 then ids.headD "" else joinSep "\x00" (sortStrings ids)
  "cce_sum_" ++ base36 (djb2 key)

/-- Provenance metadata stored under the reserved metadata key of a rewritten
message (spec section 3: ids, summary_id, parent_ids, version). -/
structure CceOriginal where
  ids : List String
  summaryId : String
  parentIds : List String
  version : Int
deriving Repr, DecidableEq

/-- A chat message (spec section 3).  Known fields are typed; the open
metadata mapping and the unknown sibling fields that must pass through
verbatim are folded into the opaque extra field; the reserved metadata key
_cce_original is the typed prov field.  The tool_calls list is opaque in the
source; its elements are modelled as strings, only presence is significant. -/
structure Message where
  id : String
  role : Option String
  content : String
  toolCalls : List String
  prov : Option CceOriginal
  extra : String
deriving Repr, DecidableEq

/-- Default token counter: ceil(content length / 3.5) per message
(docs/api-reference.md, docs/token-budget.md). -/
def defaultTokenCounter (m : Message) : Nat :=
  (2 * m.content.length + 6) / 7

/-- Compression options (spec section 6, docs/api-reference.md), with the
documented defaults.  The external LLM summarizer capability is out of scope
of this embedding; the deterministic sync path is modelled.  The fuzzy
threshold is a rational in [0,1]. -/
structure CompressOptions where
  preserve : List String := ["system"]
  recencyWindow : Nat := 4
  sourceVersion : Int := 0
  tokenBudget : Option Nat := none
  minRecencyWindow : Nat := 0
  dedup : Bool := true
  fuzzyDedup : Bool := false
  fuzzyThreshold : ℚ := 85 / 100
  embedSummaryId : Bool := false
  forceConverge : Bool := false
  tokenCounter : Message → Nat := defaultTokenCounter

/-! ## Character and string scanning helpers

The missing source operates on JavaScript strings with regular expressions;
these helpers are plain scans over character lists with the same observable
behaviour on the constructs the spec names. -/

/-- Whitespace test used by trimming (space, tab, carriage return, newline). -/
def isWs (c : Char) : Bool :=
  c == ' ' || c == '\t' || c == '\n' || c == '\r'

/-- Trims whitespace from both ends of a character list. -/
def trimChars (l : List Char) : List Char :=
  ((l.dropWhile isWs).reverse.dropWhile isWs).reverse

/-- Trimmed copy of a string. -/
def trimStr (s : String) : String := ⟨trimChars s.data⟩

/-- Splits a character list at every occurrence of the given character. -/
def splitCharAux (c : Char) : List Char → List Char → List (List Char)
  | [], acc => [acc.reverse]
  | x :: xs, acc =>
    if x == c then acc.reverse :: splitCharAux c xs []
    else splitCharAux c xs (x :: acc)

/-- Splits a character list on a character (like the JavaScript split). -/
def splitChar (c : Char) (l : List Char) : List (List Char) :=
  splitCharAux c l []

/-- Lines of a string. -/
def linesOf (s : String) : List (List Char) := splitChar '\n' s.data

/-- Substring test: does the pattern occur anywhere in the list? -/
def hasSub (pat : List Char) : List Char → Bool
  | [] => pat.isEmpty
  | l@(_ :: xs) => pat.isPrefixOf l || hasSub pat xs

/-- Substring test on strings. -/
def strContains (s pat : String) : Bool := hasSub pat.data s.data

/-- Leading-substring test on strings. -/
def strStarts (s pat : String) : Bool := pat.data.isPrefixOf s.data

/-- Word-character test for identifier tokenization (letters, digits,
underscore). -/
def isWordChar (c : Char) : Bool := c.isAlphanum || c == '_'

/-- Maximal runs of word characters of a character list. -/
def wordTokensAux : List Char → List Char → List String
  | [], acc => if acc.isEmpty then [] else [⟨acc.reverse⟩]
  | c :: rest, acc =>
    if isWordChar c then wordTokensAux rest (c :: acc)
    else (if acc.isEmpty then [] else [⟨acc.reverse⟩]) ++ wordTokensAux rest []

/-- Identifier-ish tokens of a string. -/
def wordTokens (s : String) : List String := wordTokensAux s.data []

/-- Lowercased copy of a string (ASCII case folding, as the source's
toLowerCase on the ASCII identifiers involved). -/
def lowerStr (s : String) : String := ⟨s.data.map Char.toLower⟩

/-! ## Sentence scorer and deterministic summarizer

Modelled from the spec (section 4.3) and docs/compression-pipeline.md: the
source files src/summarize.ts (functions summarize, scoreSentence,
extractEntities, summarizeStructured) are missing from the snapshot.
Word-boundary and regex details are approximated by substring and token
scans; no claim in this development depends on the exact value of a
sentence score. -/

/-- Tests for a camelCase identifier: starts lowercase, contains an
uppercase hump, no underscore. -/
def isCamel (t : String) : Bool :=
  match t.data with
  | c :: rest => c.isLower && rest.any Char.isUpper && !(t.data.contains '_')
  | [] => false

/-- Tests for a PascalCase identifier: starts uppercase, has a lowercase
letter and a second uppercase letter, no underscore. -/
def isPascal (t : String) : Bool :=
  match t.data with
  | c :: rest => c.isUpper && rest.any Char.isLower && rest.any Char.isUpper
      && !(t.data.contains '_')
  | [] => false

/-- Tests for a snake_case identifier: contains an underscore and a letter. -/
def isSnake (t : String) : Bool :=
  t.data.contains '_' && t.data.any Char.isAlpha

/-- Vowel test (ASCII). -/
def isVowel (c : Char) : Bool :=
  let d := c.toLower
  d == 'a' || d == 'e' || d == 'i' || d == 'o' || d == 'u'

/-- Vowelless abbreviation: three or more letters, all consonants. -/
def isVowellessAbbrev (t : String) : Bool :=
  t.data.length ≥ 3 && t.data.all (fun c => c.isAlpha && !isVowel c)

/-- Status words scored by the sentence scorer (case-sensitive). -/
def statusWords : List String := ["PASS", "FAIL", "ERROR", "WARNING", "WARN"]

/-- Numeric token test. -/
def isNumericTok (t : String) : Bool :=
  !t.data.isEmpty && t.data.all Char.isDigit

/-- Unit tokens recognized after a number (SI and time units of the spec). -/
def unitToks : List String :=
  ["ms", "s", "sec", "secs", "second", "seconds", "min", "mins", "minute",
   "minutes", "h", "hr", "hrs", "hour", "hours", "kb", "mb", "gb", "tb"]

/-- Counts number-followed-by-unit token pairs. -/
def countNumUnit : List String → Nat
  | a :: b :: rest =>
    (if isNumericTok a && unitToks.contains (lowerStr b) then 1 else 0)
      + countNumUnit (b :: rest)
  | _ => 0

/-- Counts digit-percent adjacencies (numbers with a percent unit). -/
def countPercent : List Char → Nat
  | a :: b :: rest =>
    (if a.isDigit && b == '%' then 1 else 0) + countPercent (b :: rest)
  | _ => 0

/-- Counts grep-style colon-line references (a colon, one or more digits,
a colon). -/
def countLineRefs : List Char → Nat
  | [] => 0
  | c :: rest =>
    (if c == ':' then
      (let ds := rest.takeWhile Char.isDigit
       if !ds.isEmpty && (rest.drop ds.length).head? == some ':' then 1 else 0)
     else 0) + countLineRefs rest

/-- Emphasis phrases (+4 when present; the spec asks for word boundaries,
approximated by substring search on the lowercased sentence). -/
def emphasisPhrases : List String :=
  ["importantly", "however", "critical", "critically", "must", "should",
   "warning", "note that", "key", "crucial"]

/-- Filler openers (−10 when the sentence starts with one of them,
case-insensitive). -/
def fillerOpeners : List String :=
  ["great", "sure", "ok", "okay", "thanks", "thank you", "happy to help",
   "of course", "certainly", "absolutely"]

/-- Additive integer sentence score of the deterministic summarizer
(spec section 4.3). -/
def scoreSentence (s : String) : Int :=
  let toks := wordTokens s
  let low := lowerStr s
  3 * ((toks.filter isCamel).eraseDups.length : Int)
  + 3 * ((toks.filter isPascal).eraseDups.length : Int)
  + 3 * ((toks.filter isSnake).eraseDups.length : Int)
  + (if emphasisPhrases.any (fun p => strContains low p) then 4 else 0)
  + 2 * ((countNumUnit toks + countPercent s.data : Nat) : Int)
  + 2 * ((toks.filter isVowellessAbbrev).eraseDups.length : Int)
  + 3 * ((toks.filter (fun t => statusWords.contains t)).length : Int)
  + 2 * (countLineRefs s.data : Int)
  + (if 40 ≤ s.length && s.length ≤ 120 then 2 else 0)
  - (if fillerOpeners.any (fun p => strStarts (lowerStr (trimStr s)) p) then 10 else 0)

/-- Abbreviations whose trailing period does not end a sentence. -/
def abbrevList : List String := ["e.g", "i.e", "etc", "vs", "Dr", "Mr", "Mrs", "Ms"]

/-- Does the reversed accumulator of the current sentence end with a known
abbreviation (so that a following period is not a sentence boundary)? -/
def endsWithAbbrev (revAcc : List Char) : Bool :=
  abbrevList.any fun a =>
    a.data.reverse.isPrefixOf revAcc &&
      (match revAcc.drop a.data.length with
       | [] => true
       | c :: _ => !c.isAlphanum)

/-- Emits the accumulated sentence if nonempty after trimming. -/
def sentenceFlush (revAcc : List Char) : List String :=
  let t := trimChars revAcc.reverse
  if t.isEmpty then [] else [⟨t⟩]

/-- Splits a paragraph into sentences at period, question mark or
exclamation mark, honoring the abbreviation list. -/
def splitSentencesAux : List Char → List Char → List String
  | [], acc => sentenceFlush acc
  | c :: rest, acc =>
    if c == '.' || c == '?' || c == '!' then
      if c == '.' && endsWithAbbrev acc then splitSentencesAux rest (c :: acc)
      else sentenceFlush (c :: acc) ++ splitSentencesAux rest []
    else splitSentencesAux rest (c :: acc)

/-- Sentences of a paragraph. -/
def splitSentences (s : String) : List String := splitSentencesAux s.data []

/-- Groups the lines of a text into paragraphs separated by blank lines. -/
def paraAux : List (List Char) → List (List Char) → List String
  | [], cur =>
    if cur.isEmpty then [] else [joinSep "\n" (cur.reverse.map fun l => ⟨l⟩)]
  | l :: rest, cur =>
    if (trimChars l).isEmpty then
      (if cur.isEmpty then [] else [joinSep "\n" (cur.reverse.map fun l => ⟨l⟩)])
        ++ paraAux rest []
    else paraAux rest (l :: cur)

/-- Paragraphs of a text (split on blank lines). -/
def paragraphsOf (s : String) : List String := paraAux (linesOf s) []

/-- A scored sentence with its global position and primary flag. -/
structure ScoredSent where
  text : String
  idx : Nat
  score : Int
  primary : Bool
deriving Repr, DecidableEq

/-- Position of the first maximal element of a list of scores. -/
def firstMaxIdx (scores : List Int) : Nat :=
  (scores.enum.foldl
    (fun (b : Nat × Int) p => if p.2 > b.2 then p else b)
    (0, scores.headD 0)).1

/-- Scored sentences of every paragraph, with a running global index; the
highest-scored sentence of each paragraph is primary. -/
def sentRecordsAux : List String → Nat → List ScoredSent
  | [], _ => []
  | p :: ps, off =>
    let sts := splitSentences p
    let pm := firstMaxIdx (sts.map scoreSentence)
    (sts.enum.map fun q =>
      ⟨q.2, off + q.1, scoreSentence q.2, decide (q.1 = pm)⟩)
      ++ sentRecordsAux ps (off + sts.length)

/-- Scored sentences of a text. -/
def sentRecords (s : String) : List ScoredSent := sentRecordsAux (paragraphsOf s) 0

/-- Sentences of a text in original order. -/
def allSentences (s : String) : List String := (sentRecords s).map ScoredSent.text

/-- Summary character budget: 200 when the input is shorter than 600
characters, 400 otherwise (spec section 4.3). -/
def summaryBudget (s : String) : Nat := if s.length < 600 then 200 else 400

/-- Candidate order of the greedy budget pack: primary sentences by
descending score first, then secondary sentences by descending score
(stable, as the JavaScript sort). -/
def orderCandidates (recs : List ScoredSent) : List ScoredSent :=
  sortBy (fun a b => b.score ≤ a.score) (recs.filter (·.primary))
    ++ sortBy (fun a b => b.score ≤ a.score) (recs.filter (fun r => !r.primary))

/-- Greedy budget pack: walks the candidates, keeping each sentence whose
length plus joiners still fits the budget. -/
def greedyAux (budget : Nat) : List ScoredSent → Nat → List ScoredSent → List ScoredSent
  | [], _, acc => acc.reverse
  | c :: cs, cur, acc =>
    let add := if acc.isEmpty then c.text.length else 5 + c.text.length
    if cur + add ≤ budget then greedyAux budget cs (cur + add) (c :: acc)
    else greedyAux budget cs cur acc

/-- Selected sentences of the greedy pack (in candidate order). -/
def greedyPick (budget : Nat) (cands : List ScoredSent) : List ScoredSent :=
  greedyAux budget cands 0 []

/-- Deterministic prose summarizer (spec section 4.3): paragraph-aware
sentence scoring, greedy budget packing, selected sentences re-ordered by
original position and joined with the five-character joiner. -/
def summarize (s : String) : String :=
  let recs := sentRecords s
  let picked := greedyPick (summaryBudget s) (orderCandidates recs)
  joinSep " ... " ((recs.filter (fun r => picked.contains r)).map ScoredSent.text)

/-! ## Entity extraction and structured-output summarizer -/

/-- Common sentence starters excluded from proper-noun entity extraction.
Modelled from the spec: the exact exclusion list of the missing source is
unknown; no claim depends on it. -/
def sentenceStarters : List String :=
  ["The", "This", "That", "These", "Those", "It", "A", "An", "I", "We",
   "You", "He", "She", "They", "If", "In", "On", "At", "For", "But",
   "And", "Or", "So", "As", "To", "Of", "With", "When", "Then", "There",
   "Here", "What", "How", "Why", "Yes", "No"]

/-- Capitalized word test (an uppercase initial followed by lowercase). -/
def isProperWord (t : String) : Bool :=
  match t.data with
  | c :: rest => c.isUpper && !rest.isEmpty && rest.all Char.isLower
  | [] => false

/-- Number-with-unit token pairs rendered as entities. -/
def numUnitPairs : List String → List String
  | a :: b :: rest =>
    (if isNumericTok a && unitToks.contains (lowerStr b) then [a ++ " " ++ b] else [])
      ++ numUnitPairs (b :: rest)
  | _ => []

/-- Entity extraction (spec section 4.3): up to 10 entities from the
original text, in preference order, de-duplicated. -/
def extractEntities (s : String) : List String :=
  let toks := wordTokens s
  ((toks.filter (fun t => isProperWord t && !sentenceStarters.contains t)
      ++ toks.filter isPascal
      ++ toks.filter isCamel
      ++ toks.filter isSnake
      ++ toks.filter isVowellessAbbrev
      ++ numUnitPairs toks).eraseDups).take 10

/-- Entity suffix appended to a summary, empty when no entities were found. -/
def entitySuffix (s : String) : String :=
  let es := extractEntities s
  if es.isEmpty then "" else " | entities: " ++ joinSep ", " es

/-- Structural-line test of the structured-output detector: a bullet, a
colon-line reference, a key=value pair, or a status token. -/
def structuralLine (l : List Char) : Bool :=
  let t := trimChars l
  (match t with
   | '-' :: ' ' :: _ => true
   | '*' :: ' ' :: _ => true
   | _ => false)
  || countLineRefs l > 0
  || l.contains '='
  || statusWords.any (fun w => hasSub w.data l)

/-- Structured-output detection (spec section 4.3): at least 6 non-empty
lines, newline density above 1/80, and more than half of the lines
structural. -/
def isStructured (s : String) : Bool :=
  let ls := (linesOf s).filter (fun l => !(trimChars l).isEmpty)
  ls.length ≥ 6
    && 80 * (s.data.count '\n') > s.length
    && 2 * (ls.filter structuralLine).length > ls.length

/-- Structured-output summarizer: keeps the structural lines that fit the
summary budget, in order.  Modelled from the spec: the missing source
extracts up to the top-N matching lines; the selection metric is not
documented, so the model keeps matching lines while the budget allows. -/
def takeBudgetLines (b : Nat) : List String → Nat → List String
  | [], _ => []
  | x :: xs, cur =>
    if cur + x.length + 1 ≤ b then x :: takeBudgetLines b xs (cur + x.length + 1)
    else []

/-- Structured-output summary text. -/
def summarizeStructured (s : String) : String :=
  let ls := ((linesOf s).filter structuralLine).map fun l => (⟨trimChars l⟩ : String)
  joinSep "\n" (takeBudgetLines (summaryBudget s) ls 0)

/-- Text summarizer of the pipeline: the structured path when the content
looks like structured tool output, the prose summarizer otherwise
(docs/compression-pipeline.md section 4). -/
def summarizeText (s : String) : String :=
  if isStructured s then summarizeStructured s else summarize s

/-! ## Classifier detectors

Modelled from the spec (section 4.1) and docs/preservation-rules.md: the
source file src/classify.ts is missing from the snapshot.  The detectors
below cover the documented hard-T0 set; the Shannon-entropy generic API-key
detector and the balanced dollar-sign LaTeX test involve real-valued
thresholds and are omitted; regex-level details are approximated by
substring and line scans.  No claim in this development depends on the
value of hardT0 or of the JSON-validity approximation. -/

/-- Backtick character (kept out of literals). -/
def btick : Char := Char.ofNat 96

/-- Fence marker test: three consecutive backticks somewhere. -/
def hasCodeFence (s : String) : Bool := hasSub [btick, btick, btick] s.data

/-- Indentation test of a line (four spaces or a tab). -/
def lineIndented (l : List Char) : Bool :=
  "    ".data.isPrefixOf l || l.head? == some '\t'

/-- Two consecutive members of the list satisfy the test. -/
def hasTwoConsecutive (p : List Char → Bool) : List (List Char) → Bool
  | a :: b :: rest => (p a && p b) || hasTwoConsecutive p (b :: rest)
  | _ => false

/-- Three consecutive members of the list satisfy the test. -/
def hasThreeConsecutive (p : List Char → Bool) : List (List Char) → Bool
  | a :: b :: c :: rest => (p a && p b && p c) || hasThreeConsecutive p (b :: c :: rest)
  | _ => false

/-- Indented-code detector: two consecutive indented lines. -/
def indentedCode (s : String) : Bool :=
  hasTwoConsecutive lineIndented (linesOf s)

/-- Opening and closing curly braces (kept out of literals). -/
def lbrace : Char := Char.ofNat 123

/-- Closing curly brace. -/
def rbrace : Char := Char.ofNat 125

/-- Balanced-delimiter count test for JSON-shaped content. -/
def balancedDelims (l : List Char) : Bool :=
  l.count lbrace == l.count rbrace && l.count '[' == l.count ']'

/-- JSON-shaped detector: a leading curly brace or bracket plus balanced
delimiters or a quoted key. -/
def jsonShaped (s : String) : Bool :=
  match trimChars s.data with
  | c :: _ => (c == lbrace || c == '[')
      && (balancedDelims s.data || hasSub ['"', ':'] s.data)
  | [] => false

/-- Key-value line test for the YAML detector. -/
def kvLine (l : List Char) : Bool :=
  (match trimChars l with
   | c :: _ => c.isAlpha
   | [] => false) && hasSub (':' :: ' ' :: []) l

/-- YAML-shaped detector: two consecutive key-value lines. -/
def yamlShaped (s : String) : Bool :=
  hasTwoConsecutive kvLine (linesOf s)

/-- Special characters of the high-special-ratio detector. -/
def specialSet : List Char :=
  ['<', '>', '|', '\\', ';', ':', '@', '#', '$', '%', '^', '&', '*',
   '(', ')', '=', '+', '~', '[', ']', lbrace, rbrace, btick]

/-- High-special-character-ratio detector: above 15 percent of the
non-space characters. -/
def highSpecialRatio (s : String) : Bool :=
  let ns := s.data.filter (fun c => !isWs c)
  100 * (ns.countP (fun c => specialSet.contains c)) > 15 * ns.length

/-- Line-length variation detector: coefficient of variation above 1.2
with more than 3 lines, computed in exact integer arithmetic
(CV above 1.2 iff 25 n sum-of-squares exceeds 61 square-of-sum). -/
def highLineVariance (s : String) : Bool :=
  let lens := (linesOf s).map List.length
  let n := lens.length
  let sm := lens.foldl (· + ·) 0
  let sq := lens.foldl (fun a x => a + x * x) 0
  n > 3 && 25 * n * sq > 61 * sm * sm

/-- Known API-key markers (spec section 4.1). -/
def apiKeyMarkers : List String :=
  ["sk-", "AKIA", "ghp_", "gho_", "ghs_", "ghr_", "ght_", "github_pat_",
   "sk_live_", "sk_test_", "rk_live_", "rk_test_", "xoxb-", "xoxp-",
   "SG.", "glpat-", "npm_", "AIza"]

/-- API-key detector (known provider markers; the generic high-entropy
token detector of the spec needs real-valued Shannon entropy and is
omitted; no claim depends on it). -/
def hasApiKey (s : String) : Bool :=
  apiKeyMarkers.any (fun p => strContains s p)

/-- LaTeX-math detector (double dollar block; the balanced single-dollar
form is approximated away; no claim depends on it). -/
def latexMath (s : String) : Bool := strContains s "$$"

/-- Unicode mathematical symbols of the unicode-math detector. -/
def unicodeMathChars : List Char :=
  ['∀', '∃', '∑', '∏', '∫', '√', '≤', '≥', '≠', '≈', '∈', '∉', '∪', '∩']

/-- Unicode-math detector. -/
def unicodeMath (s : String) : Bool :=
  s.data.any (fun c => unicodeMathChars.contains c)

/-- Strong SQL anchors: one alone marks SQL content. -/
def sqlStrong : List String :=
  ["GROUP BY", "PRIMARY KEY", "FOREIGN KEY", "NOT NULL", "VARCHAR",
   "INNER JOIN", "LEFT JOIN", "RIGHT JOIN", "CREATE TABLE", "INSERT INTO"]

/-- Weak SQL anchors: three distinct ones mark SQL content. -/
def sqlWeak : List String :=
  ["WHERE", "JOIN", "HAVING", "UNION", "DISTINCT", "SELECT", "FROM",
   "ORDER BY", "LIMIT"]

/-- SQL-content detector. -/
def sqlContent (s : String) : Bool :=
  sqlStrong.any (fun p => strContains s p)
    || (sqlWeak.filter (fun p => strContains s p)).length ≥ 3

/-- Verse-line test: capitalized without terminal punctuation. -/
def verseLine (l : List Char) : Bool :=
  let t := trimChars l
  (match t with
   | c :: _ => c.isUpper
   | [] => false)
  && (match t.getLast? with
      | some d => !(d == '.' || d == '?' || d == '!')
      | none => false)

/-- Verse-pattern detector: three consecutive verse lines. -/
def versePattern (s : String) : Bool :=
  hasThreeConsecutive verseLine (linesOf s)

/-- Hard-T0 structural detector (spec section 4.1, rule 9 of the
documented priority table). -/
def hardT0 (s : String) : Bool :=
  hasCodeFence s || indentedCode s || jsonShaped s || yamlShaped s
    || highSpecialRatio s || highLineVariance s || hasApiKey s
    || latexMath s || unicodeMath s || sqlContent s || versePattern s

/-- Valid-JSON approximation for rule 10 of the priority table (the
missing source runs a full JSON parse; no claim depends on its value). -/
def looksValidJson (s : String) : Bool := jsonShaped s

/-! ## Code-aware splitter

Modelled from the spec (section 4.4): the source file with splitCodeAndProse
is missing from the snapshot.  The content is split at every triple-backtick
marker; even segments are prose, odd segments are fence bodies. -/

/-- Splits a character list at every triple-backtick marker. -/
def fenceSplitAux : List Char → List Char → List (List Char)
  | [], acc => [acc.reverse]
  | a :: b :: c :: rest, acc =>
    if a == btick && b == btick && c == btick then acc.reverse :: fenceSplitAux rest []
    else fenceSplitAux (b :: c :: rest) (a :: acc)
  | a :: rest, acc => fenceSplitAux rest (a :: acc)
/-- Alternating split of a list into the even-position and odd-position
members. -/
def evensOdds {α : Type} : List α → List α × List α
  | [] => ([], [])
  | x :: xs =>
    let p := evensOdds xs
    (x :: p.2, p.1)

/-- Prose segments of a message content (between the fences). -/
def proseSegments (s : String) : List String :=
  ((evensOdds (fenceSplitAux s.data [])).1.map fun l => (⟨l⟩ : String))

/-- Fence bodies of a message content. -/
def fenceBodies (s : String) : List String :=
  ((evensOdds (fenceSplitAux s.data [])).2.map fun l => (⟨l⟩ : String))

/-- Total trimmed prose length surrounding the fences. -/
def proseTotal (s : String) : Nat :=
  (proseSegments s).foldl (fun a p => a + (trimChars p.data).length) 0

/-- Triple-backtick marker as a string. -/
def tripleTick : String := ⟨[btick, btick, btick]⟩

/-- Rebuilt code-split content: a summary of the concatenated prose
followed by the fences verbatim (spec section 4.4; entity suffix omitted). -/
def codeSplitContent (s : String) : String :=
  "[summary: " ++ summarize (joinSep "\n\n" (proseSegments s)) ++ "]"
    ++ joinSep "" ((fenceBodies s).map fun b => "\n\n" ++ (tripleTick ++ b ++ tripleTick))

/-! ## Classification

Modelled from the spec (section 4.1) and the priority table of
docs/preservation-rules.md: src/classify.ts is missing from the snapshot.
The tier distinction (T2 versus T3) has no effect on the pipeline (spec
section 9, open question 1) and is not modelled. -/

/-- Dedup annotation of a message: replaced by a reference, or the kept
target of a duplicate group (which skips the summarization path). -/
inductive DMark where
  | dup (ref : String)
  | keepTgt
deriving Repr, DecidableEq

/-- Per-message outcome of classification and dedup overlay. -/
inductive Verdict where
  | keep
  | dupRef (ref : String)
  | split
  | compressMe
deriving Repr, DecidableEq

/-- Role-based preservation (rule 1). -/
def rolePreserved (opts : CompressOptions) (m : Message) : Bool :=
  match m.role with
  | some r => opts.preserve.contains r
  | none => false

/-- Recency-window test (rule 2): position i of n is among the last rw. -/
def inRecency (n rw i : Nat) : Bool := decide (n ≤ i + rw)

/-- Already-compressed content test (rule 5). -/
def alreadyCompressed (s : String) : Bool :=
  strStarts s "[summary:" || strStarts s "[summary#" || strStarts s "[truncated"

/-- Rules 1 to 5 of the priority table: preservation independent of dedup
and structure. -/
def basicPreserved (opts : CompressOptions) (rw n i : Nat) (m : Message) : Bool :=
  rolePreserved opts m || inRecency n rw i || !m.toolCalls.isEmpty
    || m.content.length < 120 || alreadyCompressed m.content

/-- Full verdict of a message at position i (priority table of
docs/preservation-rules.md: rules 1-5 preserve, 6 dedup, 7 code-split,
8 fences-without-prose preserve, 9 hard T0, 10 valid JSON, 11 compress). -/
def verdictOf (opts : CompressOptions) (rw n : Nat) (marks : Nat → Option DMark)
    (i : Nat) (m : Message) : Verdict :=
  if basicPreserved opts rw n i m then .keep
  else match marks i with
    | some (.dup r) => .dupRef r
    | some .keepTgt => .keep
    | none =>
      if hasCodeFence m.content then
        (if proseTotal m.content ≥ 80 then .split else .keep)
      else if hardT0 m.content then .keep
      else if looksValidJson m.content then .keep
      else .compressMe

instance : Inhabited Message := ⟨⟨"", none, "", [], none, ""⟩⟩

/-! ## Deduplication analysis

Modelled from the spec (section 4.2) and docs/deduplication.md: the dedup
source file is missing from the snapshot.  Exact groups are formed by
byte-equal content among eligible messages (the source groups by a
length-prefixed djb2 hash first and then compares content byte-for-byte,
which yields the same groups).  The keep target is the first occurrence
inside the recency window, else the latest occurrence. -/

/-- Dedup eligibility (spec section 4.2): role not preserved, no tool
calls, not already compressed, content at least 200 characters. -/
def dedupEligible (opts : CompressOptions) (m : Message) : Bool :=
  !rolePreserved opts m && m.toolCalls.isEmpty
    && !alreadyCompressed m.content && m.content.length ≥ 200

/-- Exact-duplicate reference content (wire format of the spec, with the
em-dash). -/
def mkDupRef (keepId : String) (origLen : Nat) : String :=
  "[cce:dup of " ++ keepId ++ " — " ++ dec origLen ++ " chars]"

/-- Near-duplicate reference content (wire format of the spec). -/
def mkNearDupRef (keepId : String) (origLen pct : Nat) : String :=
  "[cce:near-dup of " ++ keepId ++ " — " ++ dec origLen ++ " chars, ~"
    ++ dec pct ++ "% match]"

/-- Keep target of a duplicate group: the first occurrence inside the
recency window, else the latest occurrence. -/
def keepOf (n rw : Nat) (grp : List (Nat × Message)) : Nat × Message :=
  match grp.filter (fun p => inRecency n rw p.1) with
  | k :: _ => k
  | [] => grp.getLastD (0, default)

/-- Exact-dedup marks over the indexed message list. -/
def exactMarks (opts : CompressOptions) (rw n : Nat)
    (xs : List (Nat × Message)) : List (Nat × DMark) :=
  let elig := xs.filter (fun p => dedupEligible opts p.2)
  ((elig.map (fun p => p.2.content)).eraseDups).flatMap fun c =>
    let grp := elig.filter (fun p => p.2.content == c)
    if grp.length ≥ 2 then
      let k := keepOf n rw grp
      grp.flatMap fun p =>
        if p.1 == k.1 then [(p.1, DMark.keepTgt)]
        else [(p.1, DMark.dup (mkDupRef k.2.id p.2.content.length))]
    else []

/-- Normalized lines of a content string: trimmed, lowercased, blanks
dropped. -/
def normLines (s : String) : List String :=
  (((linesOf s).map trimChars).filter (fun l => !l.isEmpty)).map
    fun l => (⟨l.map Char.toLower⟩ : String)

/-- Fingerprint: the first five normalized lines. -/
def fingerprintOf (s : String) : List String := (normLines s).take 5

/-- Multiset intersection and union sizes of two line lists (per-line
minimum and maximum of the multiplicities). -/
def interUnion (a b : List String) : Nat × Nat :=
  ((a ++ b).eraseDups).foldl
    (fun acc k => (acc.1 + min (a.count k) (b.count k),
                   acc.2 + max (a.count k) (b.count k)))
    (0, 0)

/-- Rounded similarity percentage of two line lists. -/
def jaccardPct (a b : List String) : Nat :=
  let iu := interUnion a b
  if iu.2 == 0 then 0 else (200 * iu.1 + iu.2) / (2 * iu.2)

/-- Jaccard acceptance at the configured threshold. -/
def jaccardAccept (thr : ℚ) (a b : List String) : Bool :=
  let iu := interUnion a b
  decide ((iu.1 : ℚ) ≥ thr * (iu.2 : ℚ))

/-- All forward pairs of a list. -/
def forwardPairs {α : Type} : List α → List (α × α)
  | [] => []
  | x :: xs => xs.map (fun y => (x, y)) ++ forwardPairs xs

/-- Candidate-pair test of fuzzy dedup: at least three shared distinct
fingerprint lines and a length ratio of at least 0.7. -/
def fuzzyCandidate (a b : Message) : Bool :=
  ((fingerprintOf a.content).eraseDups.filter
      (fun l => (fingerprintOf b.content).contains l)).length ≥ 3
    && 10 * min a.content.length b.content.length
        ≥ 7 * max a.content.length b.content.length

/-- Merges the groups containing the two indices (transitive union of
accepted pairs; the source uses union-find, whose grouping this list
merge reproduces). -/
def mergeGroups (gs : List (List Nat)) (p : Nat × Nat) : List (List Nat) :=
  let gi := (gs.find? (fun g => g.contains p.1)).getD [p.1]
  let gj := (gs.find? (fun g => g.contains p.2)).getD [p.2]
  if gi == gj then gs
  else (gs.filter (fun g => !(g == gi) && !(g == gj))) ++ [gi ++ gj]

/-- Fuzzy-dedup marks over the indexed message list (spec section 4.2,
phases 1-4; opt-in). -/
def fuzzyMarks (opts : CompressOptions) (rw n : Nat)
    (xs : List (Nat × Message)) (exact : List (Nat × DMark)) : List (Nat × DMark) :=
  let elig := xs.filter fun p =>
    dedupEligible opts p.2 && (exact.lookup p.1).isNone
      && (normLines p.2.content).length ≥ 2
  let accepted := (forwardPairs elig).filter fun q =>
    fuzzyCandidate q.1.2 q.2.2
      && jaccardAccept opts.fuzzyThreshold (normLines q.1.2.content) (normLines q.2.2.content)
  let groups := (accepted.map (fun q => (q.1.1, q.2.1))).foldl mergeGroups
    (elig.map fun p => [p.1])
  groups.flatMap fun g =>
    let grp := (sortBy (fun a b => a ≤ b) g).filterMap
      fun i => (xs.lookup i).map fun m => (i, m)
    if grp.length ≥ 2 then
      let k := keepOf n rw grp
      grp.flatMap fun p =>
        if p.1 == k.1 then [(p.1, DMark.keepTgt)]
        else [(p.1, DMark.dup (mkNearDupRef k.2.id p.2.content.length
          (jaccardPct (normLines p.2.content) (normLines k.2.content))))]
    else []

/-- All dedup marks of a run: exact marks when dedup is on, fuzzy marks on
the remainder when fuzzy dedup is on. -/
def dedupMarks (opts : CompressOptions) (rw n : Nat)
    (xs : List (Nat × Message)) : List (Nat × DMark) :=
  let ex := if opts.dedup then exactMarks opts rw n xs else []
  ex ++ (if opts.fuzzyDedup then fuzzyMarks opts rw n xs ex else [])

/-! ## Pipeline orchestrator

Modelled from the spec (section 4.5) and docs/compression-pipeline.md:
src/compress.ts is missing from the snapshot.  The walk produces plan
items; a pass item re-emits the input message unchanged, a rewrite item
replaces one or more consecutive messages by a single formatted message
carrying provenance.  Merging consecutive same-role compressible messages
therefore shortens the emitted sequence by the merged count minus one;
the decompressor re-expands a multi-id rewrite into that many messages
(spec section 4.7), which is what makes the round trip restore the input
length. -/

/-- Plan item of the orchestrator walk. -/
inductive PlanItem where
  | pass (m : Message)
  | rewrite (members : List Message) (content : String)
deriving Repr, DecidableEq

/-- Collects the summary ids of rewrites found inside the inputs to this
round (quoted in docs/provenance.md as collectParentIds). -/
def collectParentIds (ms : List Message) : List String :=
  ms.filterMap fun m => m.prov.map (fun p => p.summaryId)

/-- The emitted message of a rewrite item: the first member with the
formatted content and fresh provenance (ids in source order, deterministic
summary id, parent chain, caller version). -/
def emitRewrite (opts : CompressOptions) (members : List Message) (content : String) :
    Message :=
  let h := members.headD default
  { h with
    content := content,
    prov := some ⟨members.map Message.id, mkSummaryId (members.map Message.id),
                  collectParentIds members, opts.sourceVersion⟩ }

/-- Renders a plan item to its emitted message. -/
def renderItem (opts : CompressOptions) : PlanItem → Message
  | .pass m => m
  | .rewrite mem c => emitRewrite opts mem c

/-- Original messages covered by a plan item. -/
def itemMembers : PlanItem → List Message
  | .pass m => [m]
  | .rewrite mem _ => mem

/-- Verbatim-store entries contributed by a plan item. -/
def itemVerbatim : PlanItem → List (String × Message)
  | .pass _ => []
  | .rewrite mem _ => mem.map fun m => (m.id, m)

/-- Formatted summary content of a group (spec section 4.5 output format):
summary text of the concatenated contents, merge suffix for groups of two
or more, entity suffix from the original text, optional embedded summary
id. -/
def summaryFormat (opts : CompressOptions) (members : List Message) : String :=
  let combined := joinSep "\n\n" (members.map Message.content)
  let sid := mkSummaryId (members.map Message.id)
  (if opts.embedSummaryId then "[summary#" ++ sid ++ ": " else "[summary: ")
    ++ summarizeText combined
    ++ (if members.length > 1 then " (" ++ dec members.length ++ " messages merged)" else "")
    ++ entitySuffix combined ++ "]"

/-- Size-guarded items of a summary group: the rewrite when the formatted
content is strictly shorter than the combined originals, else every member
passes through unchanged (the merge is abandoned). -/
def groupItems (opts : CompressOptions) (members : List Message) : List PlanItem :=
  if (members.map fun m => m.content.length).sum ≤ (summaryFormat opts members).length
  then members.map .pass
  else [.rewrite members (summaryFormat opts members)]

/-- Size-guarded items of a code-split message. -/
def splitItems (_opts : CompressOptions) (m : Message) : List PlanItem :=
  if m.content.length ≤ (codeSplitContent m.content).length then [.pass m]
  else [.rewrite [m] (codeSplitContent m.content)]

/-- Closes the open group of consecutive same-role compressible messages:
nothing when the group is empty, the guarded summary items otherwise. -/
def groupClose (opts : CompressOptions) (grp : List Message) : List PlanItem :=
  if grp.isEmpty then [] else groupItems opts grp

/-- Left-to-right walk of the orchestrator, carrying the open group of
consecutive same-role compressible messages (in order): preserved and
dedup-kept messages pass through, dedup-replaced messages become single
rewrites, code-split messages become guarded split rewrites, and maximal
runs of consecutive same-role compressible messages become one guarded
summary rewrite. -/
def walkItemsAux (opts : CompressOptions) (v : Nat → Message → Verdict) :
    List (Nat × Message) → List Message → List PlanItem
  | [], grp => groupClose opts grp
  | (i, m) :: rest, grp =>
    match v i m with
    | .keep => groupClose opts grp ++ (.pass m :: walkItemsAux opts v rest [])
    | .dupRef r => groupClose opts grp ++ (.rewrite [m] r :: walkItemsAux opts v rest [])
    | .split => groupClose opts grp ++ splitItems opts m ++ walkItemsAux opts v rest []
    | .compressMe =>
      match grp with
      | [] => walkItemsAux opts v rest [m]
      | g :: gs =>
        if m.role == g.role then walkItemsAux opts v rest (g :: (gs ++ [m]))
        else groupClose opts (g :: gs) ++ walkItemsAux opts v rest [m]

/-- Plan items of the walk over the whole indexed sequence. -/
def walkItems (opts : CompressOptions) (v : Nat → Message → Verdict)
    (xs : List (Nat × Message)) : List PlanItem :=
  walkItemsAux opts v xs []

/-- Plan items of one pipeline run at the given recency window. -/
def runItems (msgs : List Message) (opts : CompressOptions) (rw : Nat) : List PlanItem :=
  let n := msgs.length
  let xs := msgs.enum
  let marks := dedupMarks opts rw n xs
  walkItems opts (fun i m => verdictOf opts rw n (fun j => marks.lookup j) i m) xs

/-- Emitted messages of one pipeline run. -/
def pipeMessages (msgs : List Message) (opts : CompressOptions) (rw : Nat) : List Message :=
  (runItems msgs opts rw).map (renderItem opts)

/-- Verbatim store of one pipeline run. -/
def pipeVerbatim (msgs : List Message) (opts : CompressOptions) (rw : Nat) :
    List (String × Message) :=
  (runItems msgs opts rw).flatMap itemVerbatim

/-! ## Stats, budget search, force-converge, and the public operations -/

/-- Total content length of a message list. -/
def sumContent (l : List Message) : Nat := (l.map fun m => m.content.length).sum

/-- Total token count of a message list under a counter. -/
def sumTokens (tc : Message → Nat) (l : List Message) : Nat := (l.map tc).sum

/-- Guarded division for the compression ratios: the empty-over-empty case
yields 1 (the source guards the division; for a zero denominator with a
positive numerator the JavaScript quotient would be infinite, a case the
snapshot does not pin down and no claim exercises). -/
def ratioOf (a b : Nat) : ℚ := if b = 0 then 1 else (a : ℚ) / (b : ℚ)

/-- Compression result (docs/api-reference.md).  The optional budget-search
fields are present exactly when a token budget was set. -/
structure CompressResult where
  messages : List Message
  verbatim : List (String × Message)
  originalVersion : Int
  ratioVal : ℚ
  tokenRatioVal : ℚ
  messagesCompressed : Nat
  messagesPreserved : Nat
  messagesDeduped : Option Nat
  messagesFuzzyDeduped : Option Nat
  fits : Option Bool := none
  tokenCount : Option Nat := none
  recencyWindow : Option Nat := none
deriving Repr, DecidableEq

/-- Count of messages whose applied verdict is a dedup replacement drawn
from the given mark list. -/
def appliedDupCount (msgs : List Message) (opts : CompressOptions) (rw : Nat)
    (mks : List (Nat × DMark)) : Nat :=
  (msgs.enum.filter fun p =>
    !(basicPreserved opts rw msgs.length p.1 p.2)
      && (match mks.lookup p.1 with
          | some (.dup _) => true
          | _ => false)).length

/-- Result of one plain pipeline run at a recency window, with stats. -/
def resultAt (msgs : List Message) (opts : CompressOptions) (rw : Nat) : CompressResult :=
  let items := runItems msgs opts rw
  let out := items.map (renderItem opts)
  let ex := if opts.dedup then exactMarks opts rw msgs.length msgs.enum else []
  { messages := out,
    verbatim := items.flatMap itemVerbatim,
    originalVersion := opts.sourceVersion,
    ratioVal := ratioOf (sumContent msgs) (sumContent out),
    tokenRatioVal := ratioOf (sumTokens opts.tokenCounter msgs) (sumTokens opts.tokenCounter out),
    messagesCompressed := (items.filter fun it =>
      match it with
      | .rewrite _ _ => true
      | _ => false).length,
    messagesPreserved := (items.filter fun it =>
      match it with
      | .pass _ => true
      | _ => false).length,
    messagesDeduped := if opts.dedup then some (appliedDupCount msgs opts rw ex) else none,
    messagesFuzzyDeduped := if opts.fuzzyDedup then
      some (appliedDupCount msgs opts rw (fuzzyMarks opts rw msgs.length msgs.enum ex)) else none }

/-- Binary search of the budget pass (spec section 4.6): probes the
ceiling midpoint, moves the lower bound up while the probe fits, the upper
bound down otherwise, and stops when the bounds meet. -/
def searchLoAux (fitsAt : Nat → Bool) : Nat → Nat → Nat → Nat
  | 0, lo, _ => lo
  | fuel + 1, lo, hi =>
    if lo < hi then
      if fitsAt ((lo + hi + 1) / 2) then searchLoAux fitsAt fuel ((lo + hi + 1) / 2) hi
      else searchLoAux fitsAt fuel lo ((lo + hi + 1) / 2 - 1)
    else lo

/-- Entry point of the binary search, with enough fuel for the interval. -/
def searchLo (fitsAt : Nat → Bool) (lo hi : Nat) : Nat :=
  searchLoAux fitsAt (hi - lo + 1) lo hi

/-- Truncated content of the force-converge pass (wire format of the
spec): the original length and the first 512 characters. -/
def truncContent (c : String) : String :=
  "[truncated — " ++ dec c.length ++ " chars: " ++ (⟨c.data.take 512⟩ : String) ++ "]"

/-- Truncates a message: an already-compressed message only has its
content replaced; an uncompressed one gains fresh provenance
(docs/provenance.md, force-converge provenance). -/
def truncMsg (opts : CompressOptions) (m : Message) : Message :=
  match m.prov with
  | some _ => { m with content := truncContent m.content }
  | none =>
    { m with
      content := truncContent m.content,
      prov := some ⟨[m.id], mkSummaryId [m.id], [], opts.sourceVersion⟩ }

/-- Force-converge eligibility of an emitted message at its position:
outside the recency window, role not preserved, content longer than 512. -/
def fcElig (opts : CompressOptions) (n rw : Nat) (p : Nat × Message) : Bool :=
  !inRecency n rw p.1 && !rolePreserved opts p.2 && p.2.content.length > 512

/-- Force-converge truncation fold: truncates the next eligible position
while the running sequence is still over budget, collecting verbatim
additions for messages that gain provenance. -/
def fcFold (opts : CompressOptions) (B : Nat) :
    List (Nat × Message) → List Message × List (String × Message)
      → List Message × List (String × Message)
  | [], st => st
  | p :: rest, st =>
    if sumTokens opts.tokenCounter st.1 ≤ B then st
    else
      fcFold opts B rest
        (st.1.set p.1 (truncMsg opts (st.1.getD p.1 default)),
         st.2 ++ (match (st.1.getD p.1 default).prov with
                  | none => [((st.1.getD p.1 default).id, st.1.getD p.1 default)]
                  | some _ => []))

/-- Force-converge pass (spec section 4.6): eligible messages sorted by
descending content length, truncated one at a time until the budget is
met or none remain. -/
def forceConvergeRun (opts : CompressOptions) (B rw : Nat) (out : List Message) :
    List Message × List (String × Message) :=
  fcFold opts B
    (sortBy (fun a b => b.2.content.length ≤ a.2.content.length)
      (out.enum.filter (fcElig opts out.length rw)))
    (out, [])

/-- The recency window the binary search settles on for a given budget. -/
def searchWindow (msgs : List Message) (opts : CompressOptions) (B : Nat) : Nat :=
  searchLo (fun w => sumTokens opts.tokenCounter (pipeMessages msgs opts w) ≤ B)
    opts.minRecencyWindow (msgs.length - 1)

/-- Emitted sequence and verbatim additions of the force-converge pass at
the settled window. -/
def fcParts (msgs : List Message) (opts : CompressOptions) (B : Nat) :
    List Message × List (String × Message) :=
  forceConvergeRun opts B (searchWindow msgs opts B)
    (pipeMessages msgs opts (searchWindow msgs opts B))

/-- Result of the budget search once the fast path has been ruled out:
the final pipeline run at the settled window, with the force-converge
pass applied when it is enabled and the run is still over budget. -/
def budgetSearchResult (msgs : List Message) (opts : CompressOptions) (B : Nat) :
    CompressResult :=
  if opts.forceConverge
      && !(sumTokens opts.tokenCounter (pipeMessages msgs opts (searchWindow msgs opts B)) ≤ B)
  then
    { resultAt msgs opts (searchWindow msgs opts B) with
      messages := (fcParts msgs opts B).1,
      verbatim := pipeVerbatim msgs opts (searchWindow msgs opts B) ++ (fcParts msgs opts B).2,
      ratioVal := ratioOf (sumContent msgs) (sumContent (fcParts msgs opts B).1),
      tokenRatioVal := ratioOf (sumTokens opts.tokenCounter msgs)
        (sumTokens opts.tokenCounter (fcParts msgs opts B).1),
      fits := some (decide (sumTokens opts.tokenCounter (fcParts msgs opts B).1 ≤ B)),
      tokenCount := some (sumTokens opts.tokenCounter (fcParts msgs opts B).1),
      recencyWindow := some (searchWindow msgs opts B) }
  else
    { resultAt msgs opts (searchWindow msgs opts B) with
      fits := some (decide (sumTokens opts.tokenCounter
        (pipeMessages msgs opts (searchWindow msgs opts B)) ≤ B)),
      tokenCount := some (sumTokens opts.tokenCounter
        (pipeMessages msgs opts (searchWindow msgs opts B))),
      recencyWindow := some (searchWindow msgs opts B) }

/-- Untouched fast-path result of the budget pass (spec section 4.6). -/
def fastPathResult (msgs : List Message) (opts : CompressOptions) : CompressResult :=
  { messages := msgs,
    verbatim := [],
    originalVersion := opts.sourceVersion,
    ratioVal := ratioOf (sumContent msgs) (sumContent msgs),
    tokenRatioVal := ratioOf (sumTokens opts.tokenCounter msgs)
      (sumTokens opts.tokenCounter msgs),
    messagesCompressed := 0,
    messagesPreserved := msgs.length,
    messagesDeduped := if opts.dedup then some 0 else none,
    messagesFuzzyDeduped := if opts.fuzzyDedup then some 0 else none,
    fits := some true,
    tokenCount := some (sumTokens opts.tokenCounter msgs),
    recencyWindow := some msgs.length }

/-- The compress operation (spec section 6; sync deterministic path).
Without a budget: one pipeline run at the configured recency window.
With a budget: the fast path when the uncompressed total already fits,
else the binary search over the recency window, a final run at the found
window, and the optional force-converge pass. -/
def compress (msgs : List Message) (opts : CompressOptions) : CompressResult :=
  match opts.tokenBudget with
  | none => resultAt msgs opts opts.recencyWindow
  | some B =>
    if sumTokens opts.tokenCounter msgs ≤ B then fastPathResult msgs opts
    else budgetSearchResult msgs opts B

/-! ## Decompressor

Modelled from the spec (section 4.7) and docs/round-trip.md:
src/expand.ts is missing from the snapshot.  The store is the lookup
function form; a plain verbatim map is passed through lookupVerbatim. -/

/-- Result of the uncompress operation. -/
structure UncompressResult where
  messages : List Message
  messagesExpanded : Nat
  messagesPassthrough : Nat
  missingIds : List String
deriving Repr, DecidableEq

/-- Expansion of one message: pass-throughs stay; a provenanced message
with every id resolved expands into the restored originals in order; any
unresolved id keeps the compressed form in place and reports the missing
ids. -/
def expandOne (store : String → Option Message) (m : Message) :
    List Message × Nat × Nat × List String :=
  match m.prov with
  | none => ([m], 0, 1, [])
  | some p =>
    let missing := p.ids.filter fun i => (store i).isNone
    if missing.isEmpty then (p.ids.filterMap store, 1, 0, [])
    else ([m], 0, 0, missing)

/-- The uncompress operation: a single linear pass consulting the store. -/
def uncompress (msgs : List Message) (store : String → Option Message) :
    UncompressResult :=
  msgs.foldr
    (fun m acc =>
      let e := expandOne store m
      ⟨e.1 ++ acc.messages, e.2.1 + acc.messagesExpanded,
       e.2.2.1 + acc.messagesPassthrough, e.2.2.2 ++ acc.missingIds⟩)
    ⟨[], 0, 0, []⟩

/-- Store lookup over the verbatim association list returned by compress. -/
def lookupVerbatim (vb : List (String × Message)) : String → Option Message :=
  fun i => vb.lookup i

/-! ## Derived notions used by the statements -/

/-- Ids covered by an emitted message: the provenance ids for a rewrite,
the own id for a pass-through. -/
def coveredIds (m : Message) : List String :=
  match m.prov with
  | some p => p.ids
  | none => [m.id]

/-- Content length of the input message with a given id (zero when the id
does not occur). -/
def origContentLen (msgs : List Message) (i : String) : Nat :=
  match msgs.find? (fun m => m.id == i) with
  | some m => m.content.length
  | none => 0

/-- Packed length of a sentence selection: text lengths plus the
five-character joiner between neighbours. -/
def packLen (l : List ScoredSent) : Nat :=
  (l.map fun r => r.text.length).sum + 5 * (l.length - 1)

/-- Recency window a compress result was finally produced at: the reported
window of a budget search, else the configured one. -/
def effectiveWindow (r : CompressResult) (opts : CompressOptions) : Nat :=
  r.recencyWindow.getD opts.recencyWindow

/-! ## Concrete fixtures for witnesses and counterexamples -/

/-- Plain user-style message fixture. -/
def mkMsg (id role content : String) : Message :=
  ⟨id, some role, content, [], none, ""⟩

/-- A run of the letter a. -/
def aStr (n : Nat) : String := ⟨List.replicate n 'a'⟩

/-- Two consecutive same-role long prose messages (they merge into one
summary under a zero recency window). -/
def pairMsgs : List Message := [mkMsg "1" "user" (aStr 130), mkMsg "2" "user" (aStr 130)]

/-- Options with no recency protection and otherwise defaults. -/
def optsRw0 : CompressOptions := { recencyWindow := 0 }

/-- A message that already carries provenance metadata on input. -/
def provMsg : Message := ⟨"p", some "user", "hi", [], some ⟨["zz"], "sid", [], 0⟩, ""⟩

/-- A 513-character message whose content starts like an already-compressed
summary, so the classifier passes it through; force-converge truncation
rewrites it to 537 characters. -/
def longPassMsg : Message := mkMsg "x" "user" ("[summary:" ++ aStr 504)

/-- A 600-character message carrying a tool call. -/
def toolMsg : Message := ⟨"t", some "tool", aStr 600, ["call"], none, ""⟩

/-- Tight budget with force-converge enabled. -/
def fcOpts : CompressOptions := { tokenBudget := some 10, forceConverge := true }

/-- Tight budget with force-converge disabled. -/
def noFcOpts : CompressOptions := { tokenBudget := some 10 }

/-! # Theorems -/

/-! ## C10: empty input -/

/-- C10: compress applied to the empty message list returns an empty
messages array and reports a character ratio of 1; the ratio computation
is guarded so that the zero-over-zero case yields 1. -/
theorem c10_empty_input (opts : CompressOptions) :
    (compress [] opts).messages = [] ∧ (compress [] opts).ratioVal = 1 := by
  unfold compress
  cases h : opts.tokenBudget with
  | none => simp [resultAt, runItems, walkItems, walkItemsAux, groupClose, ratioOf,
      sumContent, List.enum]
  | some B => simp [fastPathResult, sumTokens, ratioOf, sumContent]

/-! ## C6: token-budget fast path -/

/-- C6: whenever a token budget is set and the token count of the
uncompressed input, summed over the configured token counter, is at most
the budget, compress returns the input untouched and reports fits true
with the recency window equal to the input length. -/
theorem c6_fast_path (msgs : List Message) (opts : CompressOptions) (B : Nat)
    (hb : opts.tokenBudget = some B)
    (hle : sumTokens opts.tokenCounter msgs ≤ B) :
    (compress msgs opts).messages = msgs
      ∧ (compress msgs opts).fits = some true
      ∧ (compress msgs opts).recencyWindow = some msgs.length := by
  unfold compress
  rw [hb]
  simp [hle, fastPathResult]

/-- C6 witness: a one-message input under a generous budget takes the fast
path. -/
theorem c6_fast_path_witness :
    (compress [mkMsg "1" "user" "hi"] { tokenBudget := some 100 }).messages
        = [mkMsg "1" "user" "hi"]
      ∧ (compress [mkMsg "1" "user" "hi"] { tokenBudget := some 100 }).fits = some true
      ∧ (compress [mkMsg "1" "user" "hi"] { tokenBudget := some 100 }).recencyWindow = some 1 :=
  c6_fast_path _ _ 100 rfl (by decide)

/-! ## C7: deterministic summarizer budget and composition -/

/-- Length of a joined string list: the member lengths plus one separator
between neighbours. -/
theorem joinSep_length (sep : String) :
    ∀ l : List String, (joinSep sep l).length
      = (l.map String.length).sum + sep.length * (l.length - 1)
  | [] => by simp [joinSep]
  | [x] => by simp [joinSep]
  | x :: y :: xs => by
    have ih := joinSep_length sep (y :: xs)
    simp only [joinSep, String.length_append, ih, List.map_cons, List.sum_cons,
      List.length_cons, Nat.add_sub_cancel]
    ring

/-- Appending one sentence to a selection grows the packed length by the
sentence length plus a joiner unless the selection was empty. -/
theorem packLen_append_single (l : List ScoredSent) (c : ScoredSent) :
    packLen (l ++ [c])
      = packLen l + (if l.isEmpty then c.text.length else 5 + c.text.length) := by
  cases l with
  | nil => simp [packLen]
  | cons x xs =>
    simp only [packLen, List.map_append, List.sum_append, List.length_append,
      List.isEmpty_cons, List.map_cons, List.sum_cons, List.length_cons, List.map_nil,
      List.sum_nil, List.length_nil]
    simp
    omega

/-- The greedy pack extends the accumulator with a sublist of the
candidates. -/
theorem greedyAux_sublist (b : Nat) :
    ∀ (cs : List ScoredSent) (cur : Nat) (acc : List ScoredSent),
      ∃ s, greedyAux b cs cur acc = acc.reverse ++ s ∧ s.Sublist cs := by
  intro cs
  induction cs with
  | nil =>
    intro cur acc
    exact ⟨[], by simp [greedyAux], List.Sublist.refl _⟩
  | cons c cs ih =>
    intro cur acc
    simp only [greedyAux]
    by_cases hc : cur + (if acc.isEmpty then c.text.length else 5 + c.text.length) ≤ b
    · rw [if_pos hc]
      obtain ⟨s, hs, hsub⟩ := ih _ (c :: acc)
      refine ⟨c :: s, ?_, hsub.cons₂ c⟩
      rw [hs]
      simp
    · rw [if_neg hc]
      obtain ⟨s, hs, hsub⟩ := ih cur acc
      exact ⟨s, hs, hsub.cons c⟩

/-- The greedy pack never exceeds the budget. -/
theorem greedyAux_packLen (b : Nat) :
    ∀ (cs : List ScoredSent) (cur : Nat) (acc : List ScoredSent),
      packLen acc.reverse = cur → cur ≤ b →
      packLen (greedyAux b cs cur acc) ≤ b := by
  intro cs
  induction cs with
  | nil =>
    intro cur acc hp hb
    simpa [greedyAux, hp] using hb
  | cons c cs ih =>
    intro cur acc hp hb
    simp only [greedyAux]
    by_cases hc : cur + (if acc.isEmpty then c.text.length else 5 + c.text.length) ≤ b
    · rw [if_pos hc]
      refine ih _ (c :: acc) ?_ hc
      rw [List.reverse_cons, packLen_append_single, hp]
      cases acc <;> simp
    · rw [if_neg hc]
      exact ih cur acc hp hb

/-- The packed length is invariant under permutation. -/
theorem packLen_perm {l₁ l₂ : List ScoredSent} (h : l₁.Perm l₂) :
    packLen l₁ = packLen l₂ := by
  unfold packLen
  rw [(h.map _).sum_eq, h.length_eq]

/-- The global sentence indices form a contiguous range. -/
theorem sentRecordsAux_map_idx :
    ∀ (ps : List String) (off : Nat),
      (sentRecordsAux ps off).map ScoredSent.idx
        = List.range' off ((ps.map fun p => (splitSentences p).length).sum) := by
  intro ps
  induction ps with
  | nil => intro off; simp [sentRecordsAux]
  | cons p ps ih =>
    intro off
    simp only [sentRecordsAux, List.map_append, List.map_map]
    have hblock : ((splitSentences p).enum.map
        (fun q => (⟨q.2, off + q.1, scoreSentence q.2,
          decide (q.1 = firstMaxIdx ((splitSentences p).map scoreSentence))⟩ : ScoredSent))).map
          ScoredSent.idx
        = List.range' off (splitSentences p).length := by
      rw [List.map_map]
      have : (ScoredSent.idx ∘ fun q : Nat × String =>
          (⟨q.2, off + q.1, scoreSentence q.2,
            decide (q.1 = firstMaxIdx ((splitSentences p).map scoreSentence))⟩ : ScoredSent))
          = (fun x => off + x) ∘ Prod.fst := rfl
      rw [this, ← List.map_map, List.enum_map_fst, ← List.range'_eq_map_range]
    rw [List.map_map] at hblock
    rw [hblock, ih (off + (splitSentences p).length)]
    have := List.range'_append off (splitSentences p).length
      ((ps.map fun q => (splitSentences q).length).sum) 1
    simp only [one_mul] at this
    rw [this]
    simp [Nat.add_comm]

/-- The sentence records of a text are pairwise distinct. -/
theorem sentRecords_nodup (s : String) : (sentRecords s).Nodup := by
  apply List.Nodup.of_map ScoredSent.idx
  rw [sentRecords, sentRecordsAux_map_idx]
  exact List.nodup_range' _ _

/-- The ordered insert produces a permutation of consing. -/
theorem insertOrd_perm {α : Type} (le : α → α → Bool) (x : α) :
    ∀ l : List α, (insertOrd le x l).Perm (x :: l) := by
  intro l
  induction l with
  | nil => exact List.Perm.refl _
  | cons y ys ih =>
    rw [insertOrd]
    split
    · exact List.Perm.refl _
    · exact (ih.cons y).trans (List.Perm.swap x y ys)

/-- The insertion sort is a permutation. -/
theorem sortBy_perm {α : Type} (le : α → α → Bool) :
    ∀ l : List α, (sortBy le l).Perm l := by
  intro l
  induction l with
  | nil => exact List.Perm.refl _
  | cons x xs ih => exact (insertOrd_perm le x (sortBy le xs)).trans (ih.cons x)

/-- The candidate order is a permutation of the records. -/
theorem orderCandidates_perm (recs : List ScoredSent) :
    (orderCandidates recs).Perm recs := by
  unfold orderCandidates
  exact ((sortBy_perm _ _).append (sortBy_perm _ _)).trans
    (List.filter_append_perm _ recs)

/-- C7: for every input string the deterministic summarizer returns a
string of length at most the budget (200 characters when the input is
shorter than 600 characters, 400 otherwise) composed of full sentences of
the input in their original order, joined by the five-character joiner. -/
theorem c7_summarizer_budget (s : String) :
    (summarize s).length ≤ summaryBudget s
      ∧ ∃ sel : List String, sel.Sublist (allSentences s)
          ∧ summarize s = joinSep " ... " sel := by
  refine ⟨?_, ⟨_, (List.filter_sublist _).map _, rfl⟩⟩
  have hpick := greedyAux_sublist (summaryBudget s)
    (orderCandidates (sentRecords s)) 0 []
  obtain ⟨pk, hpk, hpksub⟩ := hpick
  have hpicked : greedyPick (summaryBudget s) (orderCandidates (sentRecords s)) = pk := by
    simpa [greedyPick] using hpk
  have hcnd : (orderCandidates (sentRecords s)).Nodup :=
    (orderCandidates_perm (sentRecords s)).nodup_iff.mpr (sentRecords_nodup s)
  have hpknd : pk.Nodup := hpksub.nodup hcnd
  have hfilnd : ((sentRecords s).filter fun r =>
      (greedyPick (summaryBudget s) (orderCandidates (sentRecords s))).contains r).Nodup :=
    (List.filter_sublist _).nodup (sentRecords_nodup s)
  have hperm : ((sentRecords s).filter fun r =>
      (greedyPick (summaryBudget s) (orderCandidates (sentRecords s))).contains r).Perm pk := by
    rw [List.perm_ext_iff_of_nodup hfilnd hpknd]
    intro a
    constructor
    · intro ha
      have := (List.mem_filter.mp ha).2
      rw [hpicked] at this
      exact List.elem_iff.mp this
    · intro ha
      apply List.mem_filter.mpr
      refine ⟨?_, by rw [hpicked]; exact List.elem_iff.mpr ha⟩
      exact (orderCandidates_perm (sentRecords s)).subset (hpksub.subset ha)
  have hbound : packLen pk ≤ summaryBudget s := by
    rw [← hpicked, greedyPick]
    exact greedyAux_packLen _ _ 0 [] rfl (Nat.zero_le _)
  have hlen : (summarize s).length = packLen ((sentRecords s).filter fun r =>
      (greedyPick (summaryBudget s) (orderCandidates (sentRecords s))).contains r) := by
    unfold summarize
    rw [joinSep_length]
    simp [packLen, List.map_map]
    rfl
  rw [hlen, packLen_perm hperm]
  exact hbound

/-! ## C8: decompressor missing-id behaviour -/

/-- Unfolding step of the decompressor. -/
theorem uncompress_cons (m : Message) (rest : List Message)
    (store : String → Option Message) :
    uncompress (m :: rest) store =
      ⟨(expandOne store m).1 ++ (uncompress rest store).messages,
       (expandOne store m).2.1 + (uncompress rest store).messagesExpanded,
       (expandOne store m).2.2.1 + (uncompress rest store).messagesPassthrough,
       (expandOne store m).2.2.2 ++ (uncompress rest store).missingIds⟩ := rfl

/-- A filterMap over a list of resolvable keys keeps the length. -/
theorem filterMap_length_of_isSome {α β : Type} (f : α → Option β) :
    ∀ l : List α, (∀ i ∈ l, (f i).isSome) → (l.filterMap f).length = l.length := by
  intro l
  induction l with
  | nil => intro _; rfl
  | cons x xs ih =>
    intro h
    obtain ⟨v, hv⟩ := Option.isSome_iff_exists.mp (h x (by simp))
    rw [List.filterMap_cons_some hv, List.length_cons, List.length_cons,
      ih fun i hi => h i (by simp [hi])]

/-- An infix of a list is an infix of any extension on the left. -/
theorem isInfix_append_left {α : Type} {l t : List α} (s : List α)
    (h : l.IsInfix t) : l.IsInfix (s ++ t) := by
  obtain ⟨u, v, huv⟩ := h
  exact ⟨s ++ u, v, by rw [← huv]; simp⟩

/-- C8: during decompression, every unresolvable id of a provenanced
message is reported in the missing-id list; a message with any unresolved
id stays in the output in its compressed form; a fully resolved rewrite
expands into exactly as many restored messages, contiguously and in
order. -/
theorem c8_missing_id_behaviour (msgs : List Message)
    (store : String → Option Message) :
    ∀ m ∈ msgs, ∀ p : CceOriginal, m.prov = some p →
      ((∀ i ∈ p.ids, store i = none → i ∈ (uncompress msgs store).missingIds)
        ∧ ((∃ i ∈ p.ids, store i = none) → m ∈ (uncompress msgs store).messages)
        ∧ ((∀ i ∈ p.ids, (store i).isSome) →
            (p.ids.filterMap store).length = p.ids.length
              ∧ (p.ids.filterMap store).IsInfix (uncompress msgs store).messages)) := by
  induction msgs with
  | nil => intro m hm; exact absurd hm (List.not_mem_nil m)
  | cons m0 rest ih =>
    intro m hm p hp
    rcases List.mem_cons.mp hm with rfl | hmr
    · rw [uncompress_cons]
      have hexp : expandOne store m =
          (let missing := p.ids.filter fun i => (store i).isNone
           if missing.isEmpty then (p.ids.filterMap store, 1, 0, [])
           else ([m], 0, 0, missing)) := by
        unfold expandOne
        rw [hp]
      by_cases hmiss : (p.ids.filter fun i => (store i).isNone).isEmpty
      · have hnone : ∀ i ∈ p.ids, ¬(store i = none) := by
          intro i hi hni
          have : i ∈ (p.ids.filter fun i => (store i).isNone) :=
            List.mem_filter.mpr ⟨hi, by simp [hni]⟩
          rw [List.isEmpty_iff.mp hmiss] at this
          exact absurd this (List.not_mem_nil i)
        refine ⟨fun i hi hni => absurd hni (hnone i hi), ?_, ?_⟩
        · rintro ⟨i, hi, hni⟩
          exact absurd hni (hnone i hi)
        · intro hsome
          rw [hexp]
          simp only [hmiss, if_pos]
          refine ⟨filterMap_length_of_isSome store p.ids hsome, ?_⟩
          exact ⟨[], (uncompress rest store).messages, by simp⟩
      · rw [hexp]
        simp only [hmiss, if_neg, Bool.false_eq_true, not_false_eq_true]
        refine ⟨?_, ?_, ?_⟩
        · intro i hi hni
          apply List.mem_append_left
          exact List.mem_filter.mpr ⟨hi, by simp [hni]⟩
        · intro _
          simp
        · intro hsome
          exfalso
          apply hmiss
          rw [List.isEmpty_iff, List.filter_eq_nil_iff]
          intro i hi
          simp only [Option.isNone_iff_eq_none]
          exact Option.ne_none_iff_isSome.mpr (hsome i hi)
    · have hrest := ih m hmr p hp
      rw [uncompress_cons]
      refine ⟨?_, ?_, ?_⟩
      · intro i hi hni
        exact List.mem_append_right _ (hrest.1 i hi hni)
      · intro hex
        exact List.mem_append_right _ (hrest.2.1 hex)
      · intro hsome
        exact ⟨(hrest.2.2 hsome).1,
          isInfix_append_left _ ((hrest.2.2 hsome).2)⟩

/-- C8 witness: a two-message sequence with one resolvable and one
unresolvable id against a one-entry store. -/
theorem c8_missing_id_behaviour_witness :
    ("zz" ∈ (uncompress [provMsg] (lookupVerbatim [])).missingIds)
      ∧ provMsg ∈ (uncompress [provMsg] (lookupVerbatim [])).messages :=
  have h := c8_missing_id_behaviour [provMsg] (lookupVerbatim [])
    provMsg (by decide) ⟨["zz"], "sid", [], 0⟩ (by decide)
  ⟨h.1 "zz" (by decide) (by decide), h.2.1 ⟨"zz", by decide, by decide⟩⟩

/-! ## Structural lemmas about the orchestrator walk -/

/-- Pass items cover exactly their messages. -/
theorem flatMap_pass (mem : List Message) :
    (mem.map PlanItem.pass).flatMap itemMembers = mem := by
  induction mem with
  | nil => rfl
  | cons x xs ih => simp [itemMembers, ih]

/-- The items of a guarded summary group cover exactly the group. -/
theorem groupItems_members (opts : CompressOptions) (mem : List Message) :
    (groupItems opts mem).flatMap itemMembers = mem := by
  unfold groupItems
  split
  · exact flatMap_pass mem
  · simp [itemMembers]

/-- The items of a guarded code split cover exactly the message. -/
theorem splitItems_members (opts : CompressOptions) (m : Message) :
    (splitItems opts m).flatMap itemMembers = [m] := by
  unfold splitItems
  split <;> simp [itemMembers]

/-- Definitional unfolding of the walk on the empty list. -/
theorem walkItemsAux_nil (opts : CompressOptions) (v : Nat → Message → Verdict)
    (grp : List Message) : walkItemsAux opts v [] grp = groupClose opts grp := rfl

/-- Definitional unfolding of the walk on a cons. -/
theorem walkItemsAux_cons (opts : CompressOptions) (v : Nat → Message → Verdict)
    (i : Nat) (m : Message) (rest : List (Nat × Message)) (grp : List Message) :
    walkItemsAux opts v ((i, m) :: rest) grp =
      match v i m with
      | Verdict.keep =>
        groupClose opts grp ++ (PlanItem.pass m :: walkItemsAux opts v rest [])
      | Verdict.dupRef r =>
        groupClose opts grp ++ (PlanItem.rewrite [m] r :: walkItemsAux opts v rest [])
      | Verdict.split =>
        groupClose opts grp ++ splitItems opts m ++ walkItemsAux opts v rest []
      | Verdict.compressMe =>
        match grp with
        | [] => walkItemsAux opts v rest [m]
        | g :: gs =>
          if m.role == g.role then walkItemsAux opts v rest (g :: (gs ++ [m]))
          else groupClose opts (g :: gs) ++ walkItemsAux opts v rest [m] := rfl

/-- Closing the open group covers exactly its members. -/
theorem groupClose_members (opts : CompressOptions) (grp : List Message) :
    (groupClose opts grp).flatMap itemMembers = grp := by
  unfold groupClose
  split
  · rename_i h
    rw [List.isEmpty_iff.mp h]
    rfl
  · exact groupItems_members opts grp

/-- Partition property of the walk with an open group: the items cover
the group followed by the input messages, in order. -/
theorem walkItemsAux_members (opts : CompressOptions) (v : Nat → Message → Verdict) :
    ∀ (xs : List (Nat × Message)) (grp : List Message),
      (walkItemsAux opts v xs grp).flatMap itemMembers = grp ++ xs.map Prod.snd := by
  intro xs
  induction xs with
  | nil =>
    intro grp
    rw [walkItemsAux_nil]
    simp [groupClose_members]
  | cons p rest ih =>
    intro grp
    obtain ⟨i, m⟩ := p
    rw [walkItemsAux_cons]
    cases hv : v i m with
    | keep =>
      simp only [hv, List.flatMap_append, List.flatMap_cons, groupClose_members,
        itemMembers, ih []]
      simp
    | dupRef r =>
      simp only [hv, List.flatMap_append, List.flatMap_cons, groupClose_members,
        itemMembers, ih []]
      simp
    | split =>
      simp only [hv, List.flatMap_append, groupClose_members, splitItems_members,
        ih []]
      simp
    | compressMe =>
      cases grp with
      | nil =>
        simp only [hv, ih [m]]
        simp
      | cons g gs =>
        by_cases hrole : (m.role == g.role) = true
        · simp only [hv, if_pos hrole, ih (g :: (gs ++ [m]))]
          simp
        · simp only [hv, if_neg hrole, List.flatMap_append, groupClose_members,
            ih [m]]
          simp

/-- Partition property of the walk: the items cover exactly the input
messages, in order. -/
theorem walkItems_members (opts : CompressOptions) (v : Nat → Message → Verdict) :
    ∀ xs : List (Nat × Message),
      (walkItems opts v xs).flatMap itemMembers = xs.map Prod.snd := by
  intro xs
  rw [walkItems, walkItemsAux_members]
  rfl

/-- Every message covered by an item of the walk is an input message. -/
theorem mem_of_item_member (opts : CompressOptions) (v : Nat → Message → Verdict)
    (xs : List (Nat × Message)) (it : PlanItem) (h : it ∈ walkItems opts v xs) :
    ∀ m ∈ itemMembers it, m ∈ xs.map Prod.snd := by
  intro m hm
  rw [← walkItems_members opts v xs]
  exact List.mem_flatMap.mpr ⟨it, h, hm⟩

/-- Case analysis of a summary-group item. -/
theorem groupItems_cases (opts : CompressOptions) (mem : List Message)
    (it : PlanItem) (h : it ∈ groupItems opts mem) :
    (∃ m ∈ mem, it = PlanItem.pass m)
      ∨ (it = PlanItem.rewrite mem (summaryFormat opts mem)
          ∧ (summaryFormat opts mem).length < (mem.map fun x => x.content.length).sum) := by
  unfold groupItems at h
  split at h
  · left
    obtain ⟨m, hm, hit⟩ := List.mem_map.mp h
    exact ⟨m, hm, hit.symm⟩
  · right
    rename_i hguard
    simp only [List.mem_singleton] at h
    exact ⟨h, Nat.lt_of_not_le hguard⟩

/-- Case analysis of an item of a group close. -/
theorem groupClose_cases (opts : CompressOptions) (grp : List Message)
    (it : PlanItem) (h : it ∈ groupClose opts grp) :
    (∃ m ∈ grp, it = PlanItem.pass m)
      ∨ (it = PlanItem.rewrite grp (summaryFormat opts grp)
          ∧ (summaryFormat opts grp).length < (grp.map fun x => x.content.length).sum) := by
  unfold groupClose at h
  split at h
  · exact absurd h (List.not_mem_nil it)
  · exact groupItems_cases opts grp it h

/-- Case analysis of a code-split item. -/
theorem splitItems_cases (opts : CompressOptions) (m : Message)
    (it : PlanItem) (h : it ∈ splitItems opts m) :
    it = PlanItem.pass m
      ∨ (it = PlanItem.rewrite [m] (codeSplitContent m.content)
          ∧ (codeSplitContent m.content).length < m.content.length) := by
  unfold splitItems at h
  split at h
  · left
    simpa using h
  · right
    rename_i hguard
    simp only [List.mem_singleton] at h
    exact ⟨h, Nat.lt_of_not_le hguard⟩

/-- Case analysis of an item of the walk with an open group: a
pass-through of a group member or input, a dedup reference of an input, a
guarded code split of an input, or a guarded summary group drawn from the
group and the inputs. -/
theorem walkItemsAux_item_cases (opts : CompressOptions) (v : Nat → Message → Verdict) :
    ∀ (xs : List (Nat × Message)) (grp : List Message) (it : PlanItem),
      it ∈ walkItemsAux opts v xs grp →
      (∃ m, it = PlanItem.pass m ∧ m ∈ grp ++ xs.map Prod.snd)
        ∨ (∃ p ∈ xs, ∃ r, it = PlanItem.rewrite [p.2] r ∧ v p.1 p.2 = Verdict.dupRef r)
        ∨ (∃ p ∈ xs, it = PlanItem.rewrite [p.2] (codeSplitContent p.2.content)
            ∧ (codeSplitContent p.2.content).length < p.2.content.length)
        ∨ (∃ mem, it = PlanItem.rewrite mem (summaryFormat opts mem) ∧ mem ≠ []
            ∧ (summaryFormat opts mem).length < (mem.map fun x => x.content.length).sum
            ∧ ∀ m ∈ mem, m ∈ grp ++ xs.map Prod.snd) := by
  intro xs
  induction xs with
  | nil =>
    intro grp it h
    rw [walkItemsAux_nil] at h
    rcases groupClose_cases opts grp it h with ⟨m, hm, he⟩ | ⟨he, hlt⟩
    · exact Or.inl ⟨m, he, by simpa using hm⟩
    · refine Or.inr (Or.inr (Or.inr ⟨grp, he, ?_, hlt, fun m hm => by simpa using hm⟩))
      intro hnil
      rw [hnil] at hlt
      simp at hlt
  | cons p rest ih =>
    intro grp it h
    obtain ⟨i, m⟩ := p
    rw [walkItemsAux_cons] at h
    have hgrpsub : ∀ (g2 : List Message), (∀ x ∈ g2, x ∈ grp ++ ((i, m) :: rest).map Prod.snd)
        → ∀ it2, it2 ∈ walkItemsAux opts v rest g2 →
        (∃ m2, it2 = PlanItem.pass m2 ∧ m2 ∈ grp ++ ((i, m) :: rest).map Prod.snd)
        ∨ (∃ q ∈ (i, m) :: rest, ∃ r, it2 = PlanItem.rewrite [q.2] r ∧ v q.1 q.2 = Verdict.dupRef r)
        ∨ (∃ q ∈ (i, m) :: rest, it2 = PlanItem.rewrite [q.2] (codeSplitContent q.2.content)
            ∧ (codeSplitContent q.2.content).length < q.2.content.length)
        ∨ (∃ mem, it2 = PlanItem.rewrite mem (summaryFormat opts mem) ∧ mem ≠ []
            ∧ (summaryFormat opts mem).length < (mem.map fun x => x.content.length).sum
            ∧ ∀ x ∈ mem, x ∈ grp ++ ((i, m) :: rest).map Prod.snd) := by
      intro g2 hg2 it2 hit2
      rcases ih g2 it2 hit2 with ⟨m2, he, hm2⟩ | ⟨q, hq, r, he⟩ | ⟨q, hq, he⟩ | ⟨mem, he, hne, hlt, hmem⟩
      · rcases List.mem_append.mp hm2 with h1 | h2
        · exact Or.inl ⟨m2, he, hg2 m2 h1⟩
        · exact Or.inl ⟨m2, he, List.mem_append_right _ (List.mem_cons_of_mem _ h2)⟩
      · exact Or.inr (Or.inl ⟨q, List.mem_cons_of_mem _ hq, r, he⟩)
      · exact Or.inr (Or.inr (Or.inl ⟨q, List.mem_cons_of_mem _ hq, he⟩))
      · refine Or.inr (Or.inr (Or.inr ⟨mem, he, hne, hlt, fun x hx => ?_⟩))
        rcases List.mem_append.mp (hmem x hx) with h1 | h2
        · exact hg2 x h1
        · exact List.mem_append_right _ (List.mem_cons_of_mem _ h2)
    have hclose : ∀ it2, it2 ∈ groupClose opts grp →
        (∃ m2, it2 = PlanItem.pass m2 ∧ m2 ∈ grp ++ ((i, m) :: rest).map Prod.snd)
        ∨ (∃ q ∈ (i, m) :: rest, ∃ r, it2 = PlanItem.rewrite [q.2] r ∧ v q.1 q.2 = Verdict.dupRef r)
        ∨ (∃ q ∈ (i, m) :: rest, it2 = PlanItem.rewrite [q.2] (codeSplitContent q.2.content)
            ∧ (codeSplitContent q.2.content).length < q.2.content.length)
        ∨ (∃ mem, it2 = PlanItem.rewrite mem (summaryFormat opts mem) ∧ mem ≠ []
            ∧ (summaryFormat opts mem).length < (mem.map fun x => x.content.length).sum
            ∧ ∀ x ∈ mem, x ∈ grp ++ ((i, m) :: rest).map Prod.snd) := by
      intro it2 hit2
      rcases groupClose_cases opts grp it2 hit2 with ⟨m2, hm2, he⟩ | ⟨he, hlt⟩
      · exact Or.inl ⟨m2, he, List.mem_append_left _ hm2⟩
      · refine Or.inr (Or.inr (Or.inr ⟨grp, he, ?_, hlt, fun x hx => List.mem_append_left _ hx⟩))
        intro hnil
        rw [hnil] at hlt
        simp at hlt
    cases hv : v i m with
    | keep =>
      simp only [hv] at h
      rcases List.mem_append.mp h with h1 | h2
      · exact hclose it h1
      · rcases List.mem_cons.mp h2 with rfl | h3
        · exact Or.inl ⟨m, rfl, List.mem_append_right _ (List.mem_cons_self _ _)⟩
        · exact hgrpsub [] (by simp) it h3
    | dupRef r =>
      simp only [hv] at h
      rcases List.mem_append.mp h with h1 | h2
      · exact hclose it h1
      · rcases List.mem_cons.mp h2 with rfl | h3
        · exact Or.inr (Or.inl ⟨(i, m), List.mem_cons_self _ _, r, rfl, hv⟩)
        · exact hgrpsub [] (by simp) it h3
    | split =>
      simp only [hv] at h
      rcases List.mem_append.mp h with h12 | h4
      · rcases List.mem_append.mp h12 with h1 | h3
        · exact hclose it h1
        · rcases splitItems_cases opts m it h3 with he | ⟨he, hlt⟩
          · exact Or.inl ⟨m, he, List.mem_append_right _ (List.mem_cons_self _ _)⟩
          · exact Or.inr (Or.inr (Or.inl ⟨(i, m), List.mem_cons_self _ _, he, hlt⟩))
      · exact hgrpsub [] (by simp) it h4
    | compressMe =>
      simp only [hv] at h
      cases grp with
      | nil =>
        exact hgrpsub [m] (by simp) it h
      | cons g gs =>
        by_cases hrole : (m.role == g.role) = true
        · simp only [hrole, if_true] at h
          refine hgrpsub (g :: (gs ++ [m])) ?_ it h
          intro x hx
          rcases List.mem_cons.mp hx with rfl | hx2
          · exact List.mem_append_left _ (List.mem_cons_self _ _)
          · rcases List.mem_append.mp hx2 with h5 | h6
            · exact List.mem_append_left _ (List.mem_cons_of_mem _ h5)
            · rw [List.mem_singleton.mp h6]
              exact List.mem_append_right _ (List.mem_cons_self _ _)
        · simp only [Bool.not_eq_true] at hrole
          simp only [hrole, if_false] at h
          rcases List.mem_append.mp h with h1 | h2
          · exact hclose it h1
          · exact hgrpsub [m] (by simp) it h2

/-- Case analysis of an item of the walk. -/
theorem walkItems_item_cases (opts : CompressOptions) (v : Nat → Message → Verdict) :
    ∀ (xs : List (Nat × Message)) (it : PlanItem), it ∈ walkItems opts v xs →
      (∃ m, it = PlanItem.pass m ∧ m ∈ xs.map Prod.snd)
        ∨ (∃ p ∈ xs, ∃ r, it = PlanItem.rewrite [p.2] r ∧ v p.1 p.2 = Verdict.dupRef r)
        ∨ (∃ p ∈ xs, it = PlanItem.rewrite [p.2] (codeSplitContent p.2.content)
            ∧ (codeSplitContent p.2.content).length < p.2.content.length)
        ∨ (∃ mem, it = PlanItem.rewrite mem (summaryFormat opts mem) ∧ mem ≠ []
            ∧ (summaryFormat opts mem).length < (mem.map fun x => x.content.length).sum
            ∧ ∀ m ∈ mem, m ∈ xs.map Prod.snd) := by
  intro xs it h
  rcases walkItemsAux_item_cases opts v xs [] it h with
    ⟨m, he, hm⟩ | hrest | hrest | ⟨mem, he, hne, hlt, hmem⟩
  · exact Or.inl ⟨m, he, by simpa using hm⟩
  · exact Or.inr (Or.inl hrest)
  · exact Or.inr (Or.inr (Or.inl hrest))
  · exact Or.inr (Or.inr (Or.inr ⟨mem, he, hne, hlt, fun m hm => by simpa using hmem m hm⟩))

/-- Every keep-verdict input passes through the walk unchanged. -/
theorem walkItemsAux_keep_pass (opts : CompressOptions) (v : Nat → Message → Verdict) :
    ∀ (xs : List (Nat × Message)) (grp : List Message) (i : Nat) (m : Message),
      (i, m) ∈ xs → v i m = Verdict.keep →
      PlanItem.pass m ∈ walkItemsAux opts v xs grp := by
  intro xs
  induction xs with
  | nil =>
    intro grp i m hm
    exact fun _ => absurd hm (List.not_mem_nil _)
  | cons p rest ih =>
    intro grp i m hm hv
    obtain ⟨j, m0⟩ := p
    rw [walkItemsAux_cons]
    rcases List.mem_cons.mp hm with heq | hm2
    · have h1 : i = j := congrArg Prod.fst heq
      have h2 : m = m0 := congrArg Prod.snd heq
      subst h1
      subst h2
      simp only [hv]
      exact List.mem_append_right _ (List.mem_cons_self _ _)
    · cases hv0 : v j m0 with
      | keep =>
        exact List.mem_append_right _ (List.mem_cons_of_mem _ (ih [] i m hm2 hv))
      | dupRef r =>
        exact List.mem_append_right _ (List.mem_cons_of_mem _ (ih [] i m hm2 hv))
      | split =>
        exact List.mem_append_right _ (ih [] i m hm2 hv)
      | compressMe =>
        cases grp with
        | nil => exact ih [m0] i m hm2 hv
        | cons g gs =>
          by_cases hrole : (m0.role == g.role) = true
          · simp only [hrole, if_true]
            exact ih _ i m hm2 hv
          · simp only [Bool.not_eq_true] at hrole
            simp only [hrole, if_false]
            exact List.mem_append_right _ (ih [m0] i m hm2 hv)

/-! ## Covered-id and force-converge preservation lemmas -/

/-- Truncation does not change the covered ids of a message. -/
theorem coveredIds_truncMsg (opts : CompressOptions) (m : Message) :
    coveredIds (truncMsg opts m) = coveredIds m := by
  cases h : m.prov <;> simp [truncMsg, coveredIds, h]

/-- The covered ids of a rendered item are the ids of its members,
provided a pass-through carries no provenance. -/
theorem coveredIds_renderItem (opts : CompressOptions) (it : PlanItem)
    (hpass : ∀ m, it = PlanItem.pass m → m.prov = none) :
    coveredIds (renderItem opts it) = (itemMembers it).map Message.id := by
  cases it with
  | pass m => simp [renderItem, itemMembers, coveredIds, hpass m rfl]
  | rewrite mem c => simp [renderItem, itemMembers, coveredIds, emitRewrite]

/-- Provenance-free messages cover exactly their own ids. -/
theorem flatMap_coveredIds_free (msgs : List Message)
    (hfree : ∀ m ∈ msgs, m.prov = none) :
    msgs.flatMap coveredIds = msgs.map Message.id := by
  induction msgs with
  | nil => rfl
  | cons x xs ih =>
    simp only [List.flatMap_cons, List.map_cons]
    rw [coveredIds, hfree x (List.mem_cons_self _ _), ih fun m hm => hfree m (List.mem_cons_of_mem _ hm)]
    rfl

/-- The emitted messages of one pipeline run cover exactly the input ids,
in order. -/
theorem pipeMessages_coveredIds (msgs : List Message) (opts : CompressOptions)
    (rw : Nat) (hfree : ∀ m ∈ msgs, m.prov = none) :
    (pipeMessages msgs opts rw).flatMap coveredIds = msgs.map Message.id := by
  unfold pipeMessages runItems
  rw [List.flatMap_map]
  have hcong : ∀ it ∈ walkItems opts
      (fun i m => verdictOf opts rw msgs.length
        (fun j => (dedupMarks opts rw msgs.length msgs.enum).lookup j) i m) msgs.enum,
      coveredIds (renderItem opts it) = (itemMembers it).map Message.id := by
    intro it hit
    apply coveredIds_renderItem
    intro m hm
    apply hfree
    have := mem_of_item_member _ _ _ it hit m
    rw [List.enum_map_snd] at this
    exact this (by rw [hm]; exact List.mem_cons_self _ _)
  rw [List.flatMap_congr hcong, ← List.map_flatMap, walkItems_members, List.enum_map_snd]

/-- Setting a position to its truncation preserves any item-wise function
that truncation preserves. -/
theorem flatMap_set_trunc (f : Message → List String) (opts : CompressOptions)
    (hf : ∀ m, f (truncMsg opts m) = f m) :
    ∀ (l : List Message) (i : Nat),
      (l.set i (truncMsg opts (l.getD i default))).flatMap f = l.flatMap f := by
  intro l
  induction l with
  | nil => intro i; rfl
  | cons x xs ih =>
    intro i
    cases i with
    | zero => simp [List.set_cons_zero, List.getD_cons_zero, hf]
    | succ j =>
      simp only [List.set_cons_succ, List.getD_cons_succ, List.flatMap_cons]
      rw [ih j]

/-- The force-converge fold preserves the covered ids and the length of
the sequence. -/
theorem fcFold_covered (opts : CompressOptions) (B : Nat) :
    ∀ (elig : List (Nat × Message)) (st : List Message × List (String × Message)),
      (fcFold opts B elig st).1.flatMap coveredIds = st.1.flatMap coveredIds
        ∧ (fcFold opts B elig st).1.length = st.1.length := by
  intro elig
  induction elig with
  | nil => intro st; exact ⟨rfl, rfl⟩
  | cons p rest ih =>
    intro st
    rw [fcFold]
    split
    · exact ⟨rfl, rfl⟩
    · refine ⟨?_, ?_⟩
      · rw [(ih _).1, flatMap_set_trunc coveredIds opts (coveredIds_truncMsg opts)]
      · rw [(ih _).2, List.length_set]

/-! ## Shape of the compress result -/

/-- The plain pipeline result emits the pipeline messages. -/
theorem resultAt_messages (msgs : List Message) (opts : CompressOptions) (rw : Nat) :
    (resultAt msgs opts rw).messages = pipeMessages msgs opts rw := rfl

/-- The plain pipeline result carries the pipeline verbatim store. -/
theorem resultAt_verbatim (msgs : List Message) (opts : CompressOptions) (rw : Nat) :
    (resultAt msgs opts rw).verbatim = pipeVerbatim msgs opts rw := rfl

/-- Every compress result is the untouched fast path, one pipeline run at
some window, or a pipeline run followed by the force-converge pass. -/
theorem compress_structure (msgs : List Message) (opts : CompressOptions) :
    ((compress msgs opts).messages = msgs ∧ (compress msgs opts).verbatim = []
      ∧ effectiveWindow (compress msgs opts) opts = msgs.length)
    ∨ (∃ rw, (compress msgs opts).messages = pipeMessages msgs opts rw
        ∧ (compress msgs opts).verbatim = pipeVerbatim msgs opts rw
        ∧ effectiveWindow (compress msgs opts) opts = rw)
    ∨ (∃ rw B, opts.forceConverge = true
        ∧ (compress msgs opts).messages
            = (forceConvergeRun opts B rw (pipeMessages msgs opts rw)).1
        ∧ (compress msgs opts).verbatim
            = pipeVerbatim msgs opts rw ++ (forceConvergeRun opts B rw (pipeMessages msgs opts rw)).2
        ∧ effectiveWindow (compress msgs opts) opts = rw) := by
  cases hb : opts.tokenBudget with
  | none =>
    have hc : compress msgs opts = resultAt msgs opts opts.recencyWindow := by
      unfold compress
      rw [hb]
    rw [hc]
    exact Or.inr (Or.inl ⟨opts.recencyWindow, rfl, rfl, rfl⟩)
  | some B =>
    have hc : compress msgs opts
        = if sumTokens opts.tokenCounter msgs ≤ B then fastPathResult msgs opts
          else budgetSearchResult msgs opts B := by
      unfold compress
      rw [hb]
    rw [hc]
    by_cases hfast : sumTokens opts.tokenCounter msgs ≤ B
    · rw [if_pos hfast]
      exact Or.inl ⟨rfl, rfl, rfl⟩
    · rw [if_neg hfast]
      unfold budgetSearchResult
      by_cases hfc : (opts.forceConverge
          && !(sumTokens opts.tokenCounter
            (pipeMessages msgs opts (searchWindow msgs opts B)) ≤ B)) = true
      · rw [if_pos hfc]
        exact Or.inr (Or.inr ⟨searchWindow msgs opts B, B,
          (Bool.and_eq_true_iff.mp hfc).1, rfl, rfl, rfl⟩)
      · rw [if_neg hfc]
        exact Or.inr (Or.inl ⟨searchWindow msgs opts B, rfl, rfl, rfl⟩)

/-! ## C2: emitted length and ids -/

/-- Items with nonempty member lists are at most as many as the covered
messages. -/
theorem items_length_le (items : List PlanItem)
    (h : ∀ it ∈ items, itemMembers it ≠ []) :
    items.length ≤ (items.flatMap itemMembers).length := by
  induction items with
  | nil => simp
  | cons it its ih =>
    simp only [List.flatMap_cons, List.length_append, List.length_cons]
    have h1 : 1 ≤ (itemMembers it).length := by
      cases hm : itemMembers it with
      | nil => exact absurd hm (h it (List.mem_cons_self _ _))
      | cons a l => simp
    have h2 := ih fun x hx => h x (List.mem_cons_of_mem _ hx)
    omega

/-- Every item of the walk covers at least one message. -/
theorem walkItems_members_nonempty (opts : CompressOptions)
    (v : Nat → Message → Verdict) (xs : List (Nat × Message)) :
    ∀ it ∈ walkItems opts v xs, itemMembers it ≠ [] := by
  intro it hit
  rcases walkItems_item_cases opts v xs it hit with
    ⟨m, he, _⟩ | ⟨p, _, r, he, _⟩ | ⟨p, _, he, _⟩ | ⟨mem, he, hne, _, _⟩
  · rw [he]; simp [itemMembers]
  · rw [he]; simp [itemMembers]
  · rw [he]; simp [itemMembers]
  · rw [he]; simpa [itemMembers] using hne

/-- The force-converge pass preserves the covered ids and the length. -/
theorem forceConvergeRun_covered (opts : CompressOptions) (B rw : Nat)
    (out : List Message) :
    (forceConvergeRun opts B rw out).1.flatMap coveredIds = out.flatMap coveredIds
      ∧ (forceConvergeRun opts B rw out).1.length = out.length := by
  unfold forceConvergeRun
  exact fcFold_covered opts B _ _

/-- One pipeline run emits at most as many messages as it consumed. -/
theorem pipeMessages_length_le (msgs : List Message) (opts : CompressOptions)
    (rw : Nat) : (pipeMessages msgs opts rw).length ≤ msgs.length := by
  unfold pipeMessages runItems
  rw [List.length_map]
  have h := items_length_le _ (walkItems_members_nonempty opts
    (fun i m => verdictOf opts rw msgs.length
      (fun j => (dedupMarks opts rw msgs.length msgs.enum).lookup j) i m) msgs.enum)
  rwa [walkItems_members, List.length_map, List.enum_length] at h

/-- C2 (amended): under provenance-free input, the concatenation of the
covered ids of the emitted sequence equals the input ids in order, and
the emitted sequence is never longer than the input; when a group of two
or more consecutive same-role messages is merged, the emitted sequence is
correspondingly shorter, not equal in length. -/
theorem c2_emitted_ids (msgs : List Message) (opts : CompressOptions)
    (hfree : ∀ m ∈ msgs, m.prov = none) :
    (compress msgs opts).messages.flatMap coveredIds = msgs.map Message.id
      ∧ (compress msgs opts).messages.length ≤ msgs.length := by
  rcases compress_structure msgs opts with ⟨hm, _, _⟩ | ⟨w, hm, _, _⟩ | ⟨w, B, _, hm, _, _⟩
  · rw [hm]
    exact ⟨flatMap_coveredIds_free msgs hfree, Nat.le_refl _⟩
  · rw [hm]
    exact ⟨pipeMessages_coveredIds msgs opts w hfree, pipeMessages_length_le msgs opts w⟩
  · rw [hm]
    refine ⟨?_, ?_⟩
    · rw [(forceConvergeRun_covered opts B w _).1]
      exact pipeMessages_coveredIds msgs opts w hfree
    · rw [(forceConvergeRun_covered opts B w _).2]
      exact pipeMessages_length_le msgs opts w

/-- C2 witness: the id-covering equality instantiated at the merging
pair. -/
theorem c2_emitted_ids_witness :
    (compress pairMsgs optsRw0).messages.flatMap coveredIds = pairMsgs.map Message.id
      ∧ (compress pairMsgs optsRw0).messages.length ≤ pairMsgs.length :=
  c2_emitted_ids pairMsgs optsRw0 (by decide)

/-- C2 counterexample: two consecutive same-role 130-character prose
messages merge into one summary, so the emitted sequence is shorter than
the input, refuting the claimed length equality under merging. -/
theorem c2_counterexample :
    (compress pairMsgs optsRw0).messages.length ≠ pairMsgs.length := by decide

/-! ## C4: preservation law -/

/-- Rules 1 to 5 force a keep verdict. -/
theorem verdictOf_keep_of_basic (opts : CompressOptions) (rw n : Nat)
    (marks : Nat → Option DMark) (i : Nat) (m : Message)
    (h : basicPreserved opts rw n i m = true) :
    verdictOf opts rw n marks i m = Verdict.keep := by
  unfold verdictOf
  rw [if_pos h]

/-- Membership of the indexed element in the enumeration from a start. -/
theorem mem_enumFrom_getD {α : Type} (d : α) :
    ∀ (l : List α) (k i : Nat), i < l.length → (k + i, l.getD i d) ∈ l.enumFrom k := by
  intro l
  induction l with
  | nil =>
    intro k i h
    exact absurd h (by simp)
  | cons x xs ih =>
    intro k i h
    cases i with
    | zero => simp [List.enumFrom]
    | succ j =>
      have := ih (k + 1) j (by simpa using h)
      rw [List.enumFrom]
      refine List.mem_cons_of_mem _ ?_
      have harith : k + 1 + j = k + (j + 1) := by omega
      rw [← harith]
      simpa using this

/-- Membership of the indexed element in the enumeration. -/
theorem mem_enum_getD {α : Type} (d : α) (l : List α) (i : Nat) (h : i < l.length) :
    (i, l.getD i d) ∈ l.enum := by
  have := mem_enumFrom_getD d l 0 i h
  simpa [List.enum] using this

/-- A basic-preserved message is emitted unchanged by a pipeline run. -/
theorem pipeMessages_preserves (msgs : List Message) (opts : CompressOptions)
    (w i : Nat) (h : i < msgs.length)
    (hb : basicPreserved opts w msgs.length i (msgs.getD i default) = true) :
    msgs.getD i default ∈ pipeMessages msgs opts w := by
  unfold pipeMessages runItems
  have hk := verdictOf_keep_of_basic opts w msgs.length
    (fun j => (dedupMarks opts w msgs.length msgs.enum).lookup j) i
    (msgs.getD i default) hb
  have hpass := walkItemsAux_keep_pass opts
    (fun i m => verdictOf opts w msgs.length
      (fun j => (dedupMarks opts w msgs.length msgs.enum).lookup j) i m)
    msgs.enum [] i (msgs.getD i default) (mem_enum_getD default msgs i h) hk
  exact List.mem_map.mpr ⟨_, hpass, rfl⟩

/-- C4 (amended): with force-converge off, no message whose role is in the
preserve list, or whose position lies within the effective recency window
(the searched window under a token budget, else the configured one), or
which carries a non-empty tool-call list, is ever rewritten: it is emitted
byte-identical.  The force-converge pass respects the preserve roles and
the window but not the tool-call rule, so the claim fails when it runs. -/
theorem c4_preservation (msgs : List Message) (opts : CompressOptions) (i : Nat)
    (h : i < msgs.length) (hfc : opts.forceConverge = false)
    (hcond : rolePreserved opts (msgs.getD i default) = true
      ∨ inRecency msgs.length (effectiveWindow (compress msgs opts) opts) i = true
      ∨ (msgs.getD i default).toolCalls ≠ []) :
    msgs.getD i default ∈ (compress msgs opts).messages := by
  rcases compress_structure msgs opts with ⟨hm, _, _⟩ | ⟨w, hm, _, hw⟩ | ⟨w, B, hfc2, _, _, _⟩
  · rw [hm]
    rw [List.getD_eq_getElem msgs default h]
    exact List.getElem_mem h
  · rw [hm]
    rw [hw] at hcond
    apply pipeMessages_preserves msgs opts w i h
    generalize msgs.getD i default = m at hcond ⊢
    unfold basicPreserved
    rcases hcond with hc | hc | hc <;> simp [hc]
  · rw [hfc] at hfc2
    exact absurd hfc2 (by simp)

/-- C4 witness: a preserved system message under defaults. -/
theorem c4_preservation_witness :
    (mkMsg "s" "system" (aStr 130)) ∈
      (compress [mkMsg "s" "system" (aStr 130)] optsRw0).messages :=
  c4_preservation [mkMsg "s" "system" (aStr 130)] optsRw0 0 (by decide) rfl
    (Or.inl (by decide))

/-- C4 counterexample: under force-converge, a 600-character tool-call
message outside the window is truncated and gains provenance, so a
tool-call message is rewritten. -/
theorem c4_counterexample :
    toolMsg.toolCalls ≠ []
      ∧ toolMsg ∉ (compress [toolMsg] fcOpts).messages
      ∧ ((compress [toolMsg] fcOpts).messages.headD default).prov.isSome := by
  refine ⟨by decide, by decide, by decide⟩

/-! ## C5: summary-id determinism -/

/-- Every message emitted by one pipeline run over provenance-free input
carries either no provenance or provenance whose summary id is the
deterministic hash of its ids. -/
theorem pipeMessages_prov (msgs : List Message) (opts : CompressOptions) (w : Nat)
    (hfree : ∀ m ∈ msgs, m.prov = none) :
    ∀ m ∈ pipeMessages msgs opts w, ∀ p, m.prov = some p →
      p.summaryId = mkSummaryId p.ids := by
  intro m hm p hp
  unfold pipeMessages runItems at hm
  obtain ⟨it, hit, hr⟩ := List.mem_map.mp hm
  cases it with
  | pass m0 =>
    have hmem := mem_of_item_member _ _ _ _ hit m0 (by simp [itemMembers])
    rw [List.enum_map_snd] at hmem
    have hnone := hfree m0 hmem
    rw [← hr] at hp
    simp only [renderItem] at hp
    rw [hnone] at hp
    cases hp
  | rewrite mem c =>
    rw [← hr] at hp
    have hp2 : (⟨mem.map Message.id, mkSummaryId (mem.map Message.id),
        collectParentIds mem, opts.sourceVersion⟩ : CceOriginal) = p := by
      simpa [renderItem, emitRewrite] using hp
    rw [← hp2]

/-- Truncation preserves the summary-id property of a message. -/
theorem truncMsg_prov (opts : CompressOptions) (m : Message)
    (h : ∀ p, m.prov = some p → p.summaryId = mkSummaryId p.ids) :
    ∀ p, (truncMsg opts m).prov = some p → p.summaryId = mkSummaryId p.ids := by
  intro p hp
  unfold truncMsg at hp
  cases hm : m.prov with
  | some q =>
    rw [hm] at hp
    simp only at hp
    have hq : q = p := by simpa using hp
    rw [← hq]
    exact h q hm
  | none =>
    rw [hm] at hp
    simp only at hp
    have hq : (⟨[m.id], mkSummaryId [m.id], [], opts.sourceVersion⟩ : CceOriginal) = p := by
      simpa using hp
    rw [← hq]

/-- The force-converge fold preserves the summary-id property pointwise. -/
theorem fcFold_prov (opts : CompressOptions) (B : Nat) :
    ∀ (elig : List (Nat × Message)) (st : List Message × List (String × Message)),
      (∀ m ∈ st.1, ∀ p, m.prov = some p → p.summaryId = mkSummaryId p.ids) →
      ∀ m ∈ (fcFold opts B elig st).1, ∀ p, m.prov = some p →
        p.summaryId = mkSummaryId p.ids := by
  intro elig
  induction elig with
  | nil => intro st h; exact h
  | cons q rest ih =>
    intro st h
    rw [fcFold]
    split
    · exact h
    · apply ih
      intro m hm
      rcases List.mem_or_eq_of_mem_set hm with hin | heq
      · exact h m hin
      · rw [heq]
        apply truncMsg_prov
        by_cases hi : q.1 < st.1.length
        · rw [List.getD_eq_getElem st.1 default hi]
          exact h _ (List.getElem_mem hi)
        · rw [List.getD_eq_default st.1 default (Nat.le_of_not_lt hi)]
          intro p hp
          cases hp

/-- C5: over provenance-free input, every emitted provenance block carries
summary_id equal to the deterministic djb2/base-36 hash of its ids
(single id, else the NUL-joined sorted ids), and the summary id is a pure
function of the sorted id list, stable across runs. -/
theorem c5_summary_id (msgs : List Message) (opts : CompressOptions)
    (hfree : ∀ m ∈ msgs, m.prov = none) :
    (∀ m ∈ (compress msgs opts).messages, ∀ p, m.prov = some p →
        p.summaryId = mkSummaryId p.ids)
      ∧ ∀ l₁ l₂ : List String, sortStrings l₁ = sortStrings l₂ →
          mkSummaryId l₁ = mkSummaryId l₂ := by
  constructor
  · rcases compress_structure msgs opts with ⟨hm, _, _⟩ | ⟨w, hm, _, _⟩ | ⟨w, B, _, hm, _, _⟩
    · rw [hm]
      intro m hmem p hp
      rw [hfree m hmem] at hp
      cases hp
    · rw [hm]
      exact pipeMessages_prov msgs opts w hfree
    · rw [hm]
      unfold forceConvergeRun
      exact fcFold_prov opts B _ _ (pipeMessages_prov msgs opts w hfree)
  · intro l₁ l₂ hs
    have hlen : l₁.length = l₂.length := by
      rw [← (sortBy_perm strLe l₁).length_eq,
        ← (sortBy_perm strLe l₂).length_eq]
      exact congrArg List.length hs
    by_cases h1 : l₁.length = 1
    · have h2 : l₂.length = 1 := hlen ▸ h1
      obtain ⟨x, hx⟩ := List.length_eq_one.mp h1
      obtain ⟨y, hy⟩ := List.length_eq_one.mp h2
      rw [hx, hy]
      rw [hx, hy] at hs
      have hxy : x = y := by simpa [sortStrings, sortBy, insertOrd] using hs
      rw [hxy]
    · have h2 : l₂.length ≠ 1 := hlen ▸ h1
      unfold mkSummaryId
      rw [if_neg h1, if_neg h2, hs]

/-- C5 witness: the summary-id law instantiated at the merging pair. -/
theorem c5_summary_id_witness :
    (∀ m ∈ (compress pairMsgs optsRw0).messages, ∀ p, m.prov = some p →
        p.summaryId = mkSummaryId p.ids)
      ∧ ∀ l₁ l₂ : List String, sortStrings l₁ = sortStrings l₂ →
          mkSummaryId l₁ = mkSummaryId l₂ :=
  c5_summary_id pairMsgs optsRw0 (by decide)

/-! ## C9: force-converge token comparison -/

/-- The walk does not read the force-converge flag. -/
theorem walkItemsAux_fc (opts : CompressOptions) (b : Bool)
    (v : Nat → Message → Verdict) :
    ∀ (xs : List (Nat × Message)) (grp : List Message),
      walkItemsAux { opts with forceConverge := b } v xs grp
        = walkItemsAux opts v xs grp := by
  intro xs
  induction xs with
  | nil =>
    intro grp
    rw [walkItemsAux_nil, walkItemsAux_nil]
    exact rfl
  | cons p rest ih =>
    intro grp
    obtain ⟨i, m⟩ := p
    rw [walkItemsAux_cons, walkItemsAux_cons]
    cases hv : v i m with
    | keep =>
      rw [ih]
      exact rfl
    | dupRef r =>
      rw [ih]
      exact rfl
    | split =>
      rw [ih]
      exact rfl
    | compressMe =>
      dsimp only
      cases grp with
      | nil => exact ih [m]
      | cons g gs =>
        by_cases hrole : (m.role == g.role) = true
        · simp only [hrole, if_true]
          exact ih _
        · simp only [Bool.not_eq_true] at hrole
          simp only [hrole, Bool.false_eq_true, if_false, ih]
          exact rfl

/-- The run plan does not read the force-converge flag. -/
theorem runItems_fc (msgs : List Message) (opts : CompressOptions) (b : Bool)
    (w : Nat) :
    runItems msgs { opts with forceConverge := b } w = runItems msgs opts w := by
  unfold runItems walkItems
  rw [walkItemsAux_fc]
  exact rfl

/-- The pipeline messages do not read the force-converge flag. -/
theorem pipeMessages_fc (msgs : List Message) (opts : CompressOptions) (b : Bool)
    (w : Nat) :
    pipeMessages msgs { opts with forceConverge := b } w = pipeMessages msgs opts w := by
  unfold pipeMessages
  rw [runItems_fc]
  exact rfl

/-- The searched window does not read the force-converge flag. -/
theorem searchWindow_fc (msgs : List Message) (opts : CompressOptions) (b : Bool)
    (B : Nat) :
    searchWindow msgs { opts with forceConverge := b } B = searchWindow msgs opts B := by
  unfold searchWindow
  have hf : (fun w => decide (sumTokens ({ opts with forceConverge := b
        } : CompressOptions).tokenCounter
        (pipeMessages msgs { opts with forceConverge := b } w) ≤ B))
      = fun w => decide (sumTokens opts.tokenCounter (pipeMessages msgs opts w) ≤ B) := by
    funext w
    rw [pipeMessages_fc]
  exact congrArg (fun f => searchLo f _ _) hf

/-- Fuel irrelevance of the decimal rendering: any fuel above the number
yields the same digits. -/
theorem decCharsAux_irrel :
    ∀ (f1 : Nat), ∀ (n f2 : Nat), n < f1 → n < f2 →
      decCharsAux f1 n = decCharsAux f2 n := by
  intro f1
  induction f1 with
  | zero => intro n f2 h1 _; omega
  | succ g ih =>
    intro n f2 h1 h2
    cases f2 with
    | zero => omega
    | succ g2 =>
      rw [decCharsAux, decCharsAux]
      by_cases hn : n < 10
      · rw [if_pos hn, if_pos hn]
      · rw [if_neg hn, if_neg hn]
        rw [ih (n / 10) g2 (by omega) (by omega)]

/-- Small numbers render as one digit. -/
theorem decChars_small (n : Nat) (h : n < 10) :
    decChars n = [Char.ofNat (48 + n)] := by
  rw [decChars, decCharsAux, if_pos h]

/-- Recurrence of the decimal rendering. -/
theorem decChars_step (n : Nat) (h : 10 ≤ n) :
    decChars n = decChars (n / 10) ++ [Char.ofNat (48 + n % 10)] := by
  rw [decChars, decCharsAux, if_neg (by omega)]
  rw [decCharsAux_irrel n (n / 10) (n / 10 + 1) (by omega) (by omega)]
  rfl

/-- A number up to 999 renders in at most three digits. -/
theorem decChars_le_three (n : Nat) (h : n ≤ 999) :
    (decChars n).length ≤ 3 := by
  by_cases h1 : n < 10
  · rw [decChars_small n h1]
    simp
  · rw [decChars_step n (by omega), List.length_append]
    by_cases h2 : n / 10 < 10
    · rw [decChars_small _ h2]
      simp
    · rw [decChars_step _ (by omega), List.length_append]
      rw [decChars_small (n / 10 / 10) (by omega)]
      simp

/-- At least three digits from 100 on. -/
theorem decChars_ge_three (n : Nat) (h : 100 ≤ n) :
    3 ≤ (decChars n).length := by
  rw [decChars_step n (by omega), List.length_append]
  rw [decChars_step (n / 10) (by omega), List.length_append]
  have h3 : 1 ≤ (decChars (n / 10 / 10)).length := by
    by_cases h4 : n / 10 / 10 < 10
    · rw [decChars_small _ h4]; simp
    · rw [decChars_step _ (by omega), List.length_append]; simp
  simp only [List.length_singleton]
  omega

/-- The digit count of a large number is far below the number itself. -/
theorem decChars_le_div (n : Nat) (h : 1000 ≤ n) :
    (decChars n).length ≤ n / 250 := by
  induction n using Nat.strong_induction_on with
  | _ n ih =>
    rw [decChars_step n (by omega), List.length_append, List.length_singleton]
    by_cases hs : n / 10 ≤ 999
    · have := decChars_le_three (n / 10) hs
      omega
    · have hrec := ih (n / 10) (by omega) (by omega)
      have hd : n / 10 / 250 = n / 2500 := by
        rw [Nat.div_div_eq_div_mul]
      omega

/-- Truncating content of at least 537 characters shortens it. -/
theorem trunc_shrinks (L : Nat) (h : 537 ≤ L) :
    534 + (decChars L).length ≤ L := by
  by_cases h1 : L ≤ 999
  · have := decChars_le_three L h1
    omega
  · have := decChars_le_div L (by omega)
    omega

/-- Exact length of the truncation wire format. -/
theorem truncContent_length (c : String) :
    (truncContent c).length = 22 + (decChars c.length).length + min 512 c.length := by
  unfold truncContent
  rw [String.length_append, String.length_append, String.length_append,
    String.length_append]
  have h1 : ("[truncated — " : String).length = 13 := by decide
  have h2 : (dec c.length).length = (decChars c.length).length := rfl
  have h3 : (" chars: " : String).length = 8 := by decide
  have h4 : ((⟨c.data.take 512⟩ : String)).length = min 512 c.length := by
    show (c.data.take 512).length = min 512 c.length
    rw [List.length_take]
    rfl
  have h5 : ("]" : String).length = 1 := by decide
  rw [h1, h2, h3, h4, h5]
  omega

/-- Truncation always replaces the content by the wire format. -/
theorem truncMsg_content (opts : CompressOptions) (m : Message) :
    (truncMsg opts m).content = truncContent m.content := by
  unfold truncMsg
  cases hm : m.prov <;> rfl

/-- Reading a just-set position. -/
theorem getD_set_self :
    ∀ (l : List Message) (i : Nat) (y : Message), i < l.length →
      (l.set i y).getD i default = y := by
  intro l
  induction l with
  | nil => intro i y h; simp at h
  | cons x xs ih =>
    intro i y h
    cases i with
    | zero => rfl
    | succ j =>
      rw [List.set_cons_succ, List.getD_cons_succ]
      exact ih j y (by simpa using h)

/-- Reading past a set at a different position. -/
theorem getD_set_ne :
    ∀ (l : List Message) (i j : Nat) (y : Message), i ≠ j →
      (l.set i y).getD j default = l.getD j default := by
  intro l
  induction l with
  | nil => intro i j y _; simp [List.set_nil]
  | cons x xs ih =>
    intro i j y hne
    cases i with
    | zero =>
      cases j with
      | zero => exact absurd rfl hne
      | succ j2 => rfl
    | succ i2 =>
      cases j with
      | zero => rfl
      | succ j2 =>
        rw [List.set_cons_succ, List.getD_cons_succ, List.getD_cons_succ]
        exact ih i2 j2 y (fun h => hne (by rw [h]))

/-- Replacing one element by a cheaper one does not raise the mapped sum. -/
theorem sum_map_set_le (f : Message → Nat) :
    ∀ (l : List Message) (i : Nat) (y : Message),
      f y ≤ f (l.getD i default) →
      ((l.set i y).map f).sum ≤ (l.map f).sum := by
  intro l
  induction l with
  | nil => intro i y _; simp [List.set_nil]
  | cons x xs ih =>
    intro i y hle
    cases i with
    | zero =>
      rw [List.getD_cons_zero] at hle
      simp only [List.set_cons_zero, List.map_cons, List.sum_cons]
      omega
    | succ j =>
      rw [List.getD_cons_succ] at hle
      simp only [List.set_cons_succ, List.map_cons, List.sum_cons]
      have := ih j y hle
      omega

/-- Position and value of an enumeration member, from any start. -/
theorem enumFrom_getD :
    ∀ (l : List Message) (k : Nat) (p : Nat × Message), p ∈ l.enumFrom k →
      k ≤ p.1 ∧ l.getD (p.1 - k) default = p.2 := by
  intro l
  induction l with
  | nil => intro k p h; simp [List.enumFrom] at h
  | cons x xs ih =>
    intro k p h
    rw [List.enumFrom] at h
    rcases List.mem_cons.mp h with rfl | h2
    · exact ⟨Nat.le_refl _, by simp⟩
    · obtain ⟨hk, hget⟩ := ih (k + 1) p h2
      refine ⟨by omega, ?_⟩
      have : p.1 - k = (p.1 - (k + 1)) + 1 := by omega
      rw [this, List.getD_cons_succ]
      exact hget

/-- Position and value of an enumeration member. -/
theorem enum_getD (l : List Message) (p : Nat × Message) (h : p ∈ l.enum) :
    l.getD p.1 default = p.2 := by
  have := enumFrom_getD l 0 p (by simpa [List.enum] using h)
  simpa using this.2

/-- The force-converge fold does not raise the default token count when
every message is outside the growth band (513 to 536 characters) and
every listed position currently holds an over-512 message. -/
theorem fcFold_tokens (opts : CompressOptions) (B : Nat)
    (htc : ∀ m : Message, opts.tokenCounter m = defaultTokenCounter m) :
    ∀ (elig : List (Nat × Message)) (st : List Message × List (String × Message)),
      (∀ m ∈ st.1, m.content.length ≤ 512 ∨ 537 ≤ m.content.length) →
      (∀ p ∈ elig, 512 < (st.1.getD p.1 default).content.length) →
      sumTokens opts.tokenCounter (fcFold opts B elig st).1
        ≤ sumTokens opts.tokenCounter st.1 := by
  intro elig
  induction elig with
  | nil => intro st _ _; exact Nat.le_refl _
  | cons q rest ih =>
    intro st hinv helig
    rw [fcFold]
    split
    · exact Nat.le_refl _
    · have hlen : 512 < (st.1.getD q.1 default).content.length :=
        helig q (List.mem_cons_self _ _)
      have hqlt : q.1 < st.1.length := by
        by_contra hq
        rw [List.getD_eq_default st.1 default (Nat.le_of_not_lt hq)] at hlen
        exact absurd hlen (by decide)
      have hxmem : st.1.getD q.1 default ∈ st.1 := by
        rw [List.getD_eq_getElem st.1 default hqlt]
        exact List.getElem_mem hqlt
      have hx537 : 537 ≤ (st.1.getD q.1 default).content.length := by
        rcases hinv _ hxmem with h | h
        · omega
        · exact h
      have htx_len : (truncMsg opts (st.1.getD q.1 default)).content.length
          ≤ (st.1.getD q.1 default).content.length := by
        rw [truncMsg_content, truncContent_length]
        rw [Nat.min_eq_left (by omega)]
        have := trunc_shrinks (st.1.getD q.1 default).content.length hx537
        omega
      have htx_ge : 537 ≤ (truncMsg opts (st.1.getD q.1 default)).content.length := by
        rw [truncMsg_content, truncContent_length]
        rw [Nat.min_eq_left (by omega)]
        have := decChars_ge_three (st.1.getD q.1 default).content.length (by omega)
        omega
      refine Nat.le_trans (ih _ ?_ ?_) ?_
      · intro m hm
        rcases List.mem_or_eq_of_mem_set hm with h | h
        · exact hinv m h
        · right
          rw [h]
          exact htx_ge
      · intro p hp
        by_cases hpq : q.1 = p.1
        · rw [← hpq]
          rw [getD_set_self st.1 q.1 _ hqlt]
          omega
        · rw [getD_set_ne st.1 q.1 p.1 _ hpq]
          exact helig p (List.mem_cons_of_mem _ hp)
      · show sumTokens opts.tokenCounter (st.1.set q.1 _) ≤ sumTokens opts.tokenCounter st.1
        unfold sumTokens
        apply sum_map_set_le
        rw [htc, htc]
        unfold defaultTokenCounter
        apply Nat.div_le_div_right
        omega

/-- Shape of the budget-search result when force-converge is off. -/
theorem budgetSearchResult_noFc (msgs : List Message) (opts : CompressOptions)
    (B : Nat) (hfc : opts.forceConverge = false) :
    (budgetSearchResult msgs opts B).messages
        = pipeMessages msgs opts (searchWindow msgs opts B)
      ∧ (budgetSearchResult msgs opts B).tokenCount
        = some (sumTokens opts.tokenCounter
            (pipeMessages msgs opts (searchWindow msgs opts B))) := by
  unfold budgetSearchResult
  rw [hfc, Bool.false_and, if_neg Bool.false_ne_true]
  exact ⟨rfl, rfl⟩

/-- Shape of the budget-search result when the final run already fits. -/
theorem budgetSearchResult_fits (msgs : List Message) (opts : CompressOptions)
    (B : Nat)
    (hfit : sumTokens opts.tokenCounter
      (pipeMessages msgs opts (searchWindow msgs opts B)) ≤ B) :
    (budgetSearchResult msgs opts B).messages
        = pipeMessages msgs opts (searchWindow msgs opts B)
      ∧ (budgetSearchResult msgs opts B).tokenCount
        = some (sumTokens opts.tokenCounter
            (pipeMessages msgs opts (searchWindow msgs opts B))) := by
  unfold budgetSearchResult
  have hd : decide (sumTokens opts.tokenCounter
      (pipeMessages msgs opts (searchWindow msgs opts B)) ≤ B) = true :=
    decide_eq_true hfit
  rw [hd, Bool.not_true, Bool.and_false, if_neg Bool.false_ne_true]
  exact ⟨rfl, rfl⟩

/-- Shape of the budget-search result when the force-converge pass runs. -/
theorem budgetSearchResult_fcRun (msgs : List Message) (opts : CompressOptions)
    (B : Nat) (hfc : opts.forceConverge = true)
    (hfit : ¬ sumTokens opts.tokenCounter
      (pipeMessages msgs opts (searchWindow msgs opts B)) ≤ B) :
    (budgetSearchResult msgs opts B).messages = (fcParts msgs opts B).1
      ∧ (budgetSearchResult msgs opts B).tokenCount
        = some (sumTokens opts.tokenCounter (fcParts msgs opts B).1) := by
  unfold budgetSearchResult
  have hd : decide (sumTokens opts.tokenCounter
      (pipeMessages msgs opts (searchWindow msgs opts B)) ≤ B) = false :=
    decide_eq_false hfit
  rw [hfc, Bool.true_and, hd, Bool.not_false, if_pos rfl]
  exact ⟨rfl, rfl⟩

/-- C9 (amended): with a token budget set, the default token counter, and
no emitted message of the plain run falling in the truncation growth band
of 513 to 536 characters, enabling force-converge reports a token count
at most that of the run with force-converge disabled and the same other
options, and the emitted length is unchanged.  Inside the growth band the
truncation wire format is longer than the original content and the
reported token count can grow instead. -/
theorem c9_force_converge (msgs : List Message) (opts : CompressOptions) (B : Nat)
    (hb : opts.tokenBudget = some B)
    (htc : ∀ m : Message, opts.tokenCounter m = defaultTokenCounter m)
    (hlen : ∀ m ∈ (compress msgs { opts with forceConverge := false }).messages,
        m.content.length ≤ 512 ∨ 537 ≤ m.content.length) :
    (compress msgs { opts with forceConverge := true }).tokenCount.getD 0
        ≤ (compress msgs { opts with forceConverge := false }).tokenCount.getD 0
      ∧ (compress msgs { opts with forceConverge := true }).messages.length
          = (compress msgs { opts with forceConverge := false }).messages.length := by
  have hbF : ({ opts with forceConverge := false } : CompressOptions).tokenBudget
      = some B := hb
  have hbT : ({ opts with forceConverge := true } : CompressOptions).tokenBudget
      = some B := hb
  have hcompF : compress msgs { opts with forceConverge := false }
      = if sumTokens opts.tokenCounter msgs ≤ B
        then fastPathResult msgs { opts with forceConverge := false }
        else budgetSearchResult msgs { opts with forceConverge := false } B := by
    unfold compress
    rw [hbF]
  have hcompT : compress msgs { opts with forceConverge := true }
      = if sumTokens opts.tokenCounter msgs ≤ B
        then fastPathResult msgs { opts with forceConverge := true }
        else budgetSearchResult msgs { opts with forceConverge := true } B := by
    unfold compress
    rw [hbT]
  by_cases hfast : sumTokens opts.tokenCounter msgs ≤ B
  · rw [hcompT, hcompF, if_pos hfast, if_pos hfast]
    exact ⟨Nat.le_refl _, rfl⟩
  · rw [hcompT, hcompF, if_neg hfast, if_neg hfast]
    obtain ⟨hFmsg, hFtok⟩ := budgetSearchResult_noFc msgs
      { opts with forceConverge := false } B rfl
    rw [searchWindow_fc, pipeMessages_fc] at hFmsg hFtok
    rw [hcompF, if_neg hfast, hFmsg] at hlen
    by_cases hfit : sumTokens opts.tokenCounter
        (pipeMessages msgs opts (searchWindow msgs opts B)) ≤ B
    · obtain ⟨hTmsg, hTtok⟩ := budgetSearchResult_fits msgs
        { opts with forceConverge := true } B
        (by rw [searchWindow_fc, pipeMessages_fc]; exact hfit)
      rw [searchWindow_fc, pipeMessages_fc] at hTmsg hTtok
      rw [hTmsg, hTtok, hFmsg, hFtok]
      exact ⟨Nat.le_refl _, rfl⟩
    · obtain ⟨hTmsg, hTtok⟩ := budgetSearchResult_fcRun msgs
        { opts with forceConverge := true } B rfl
        (by rw [searchWindow_fc, pipeMessages_fc]; exact hfit)
      have hP : pipeMessages msgs { opts with forceConverge := true }
          (searchWindow msgs { opts with forceConverge := true } B)
          = pipeMessages msgs opts (searchWindow msgs opts B) := by
        rw [searchWindow_fc, pipeMessages_fc]
      have hfcParts : fcParts msgs { opts with forceConverge := true } B
          = forceConvergeRun { opts with forceConverge := true } B
              (searchWindow msgs opts B)
              (pipeMessages msgs opts (searchWindow msgs opts B)) := by
        unfold fcParts
        rw [searchWindow_fc, pipeMessages_fc]
      rw [hTmsg, hTtok, hFmsg, hFtok, hfcParts]
      constructor
      · simp only [Option.getD_some]
        refine Nat.le_trans ?_ (Nat.le_refl (sumTokens opts.tokenCounter
          (pipeMessages msgs opts (searchWindow msgs opts B))))
        unfold forceConvergeRun
        apply fcFold_tokens { opts with forceConverge := true } B (fun m => htc m)
        · exact hlen
        · intro p hp
          have hp2 : p ∈ (pipeMessages msgs opts (searchWindow msgs opts B)).enum.filter
              (fcElig { opts with forceConverge := true }
                (pipeMessages msgs opts (searchWindow msgs opts B)).length
                (searchWindow msgs opts B)) :=
            (sortBy_perm _ _).mem_iff.mp hp
          obtain ⟨hmem, hflt⟩ := List.mem_filter.mp hp2
          have hgd := enum_getD _ p hmem
          unfold fcElig at hflt
          simp only [Bool.and_eq_true, decide_eq_true_eq] at hflt
          rw [hgd]
          exact hflt.2
      · rw [(forceConvergeRun_covered { opts with forceConverge := true } B
          (searchWindow msgs opts B)
          (pipeMessages msgs opts (searchWindow msgs opts B))).2]

/-- C9 witness: the comparison instantiated at a single 600-character
tool-call message under a tight budget. -/
theorem c9_force_converge_witness :
    (compress [toolMsg] { noFcOpts with forceConverge := true }).tokenCount.getD 0
        ≤ (compress [toolMsg] { noFcOpts with forceConverge := false }).tokenCount.getD 0
      ∧ (compress [toolMsg] { noFcOpts with forceConverge := true }).messages.length
          = (compress [toolMsg] { noFcOpts with forceConverge := false }).messages.length :=
  c9_force_converge [toolMsg] noFcOpts 10 rfl (fun _ => rfl) (by decide)

/-- C9 counterexample: a 513-character pass-through inside the growth band
is truncated to 537 characters, so the force-converge run reports more
tokens than the plain run with identical other options. -/
theorem c9_counterexample :
    fcOpts = { noFcOpts with forceConverge := true }
      ∧ ¬ (compress [longPassMsg] fcOpts).tokenCount.getD 0
          ≤ (compress [longPassMsg] noFcOpts).tokenCount.getD 0 := by
  refine ⟨rfl, by decide⟩

/-! ## C3: size guard -/

/-- The defaulted last element of a nonempty list is a member. -/
theorem getLastD_mem :
    ∀ (l : List (Nat × Message)) (d : Nat × Message), l ≠ [] → l.getLastD d ∈ l := by
  intro l
  induction l with
  | nil => intro d h; exact absurd rfl h
  | cons x xs ih =>
    intro d _
    rw [List.getLastD_cons]
    cases hxs : xs with
    | nil => exact List.mem_cons_self _ _
    | cons y ys =>
      rw [← hxs]
      exact List.mem_cons_of_mem _ (ih x (by rw [hxs]; exact List.cons_ne_nil y ys))

/-- The keep target of a nonempty duplicate group is a group member. -/
theorem keepOf_mem (n rw : Nat) (grp : List (Nat × Message)) (h : grp ≠ []) :
    keepOf n rw grp ∈ grp := by
  unfold keepOf
  split
  · rename_i k rest heq
    exact List.mem_of_mem_filter (heq ▸ List.mem_cons_self k rest)
  · exact getLastD_mem grp (0, default) h

/-- Components of a forward pair are list members. -/
theorem forwardPairs_mem {α : Type} :
    ∀ (l : List α) (a b : α), (a, b) ∈ forwardPairs l → a ∈ l ∧ b ∈ l := by
  intro l
  induction l with
  | nil => intro a b h; simp [forwardPairs] at h
  | cons x xs ih =>
    intro a b h
    rw [forwardPairs] at h
    rcases List.mem_append.mp h with h1 | h2
    · obtain ⟨y, hy, he⟩ := List.mem_map.mp h1
      have ha : a = x := (congrArg Prod.fst he).symm
      have hb : b = y := (congrArg Prod.snd he).symm
      exact ⟨ha ▸ List.mem_cons_self _ _, hb ▸ List.mem_cons_of_mem _ hy⟩
    · obtain ⟨ha, hb⟩ := ih a b h2
      exact ⟨List.mem_cons_of_mem _ ha, List.mem_cons_of_mem _ hb⟩

/-- Merging groups preserves a property of every grouped index. -/
theorem mergeGroups_all (P : Nat → Prop) (gs : List (List Nat)) (pr : Nat × Nat)
    (hgs : ∀ g ∈ gs, ∀ j ∈ g, P j) (h1 : P pr.1) (h2 : P pr.2) :
    ∀ g ∈ mergeGroups gs pr, ∀ j ∈ g, P j := by
  intro g hg j hj
  unfold mergeGroups at hg
  simp only [] at hg
  have hgi : ∀ j2 ∈ (gs.find? (fun g2 => g2.contains pr.1)).getD [pr.1], P j2 := by
    cases hf : gs.find? (fun g2 => g2.contains pr.1) with
    | none => intro j2 hj2; simp at hj2; exact hj2 ▸ h1
    | some g2 =>
      intro j2 hj2
      exact hgs g2 (List.mem_of_find?_eq_some hf) j2 (by simpa using hj2)
  have hgj : ∀ j2 ∈ (gs.find? (fun g2 => g2.contains pr.2)).getD [pr.2], P j2 := by
    cases hf : gs.find? (fun g2 => g2.contains pr.2) with
    | none => intro j2 hj2; simp at hj2; exact hj2 ▸ h2
    | some g2 =>
      intro j2 hj2
      exact hgs g2 (List.mem_of_find?_eq_some hf) j2 (by simpa using hj2)
  split at hg
  · exact hgs g hg j hj
  · rcases List.mem_append.mp hg with h3 | h4
    · exact hgs g (List.mem_of_mem_filter h3) j hj
    · rw [List.mem_singleton] at h4
      subst h4
      rcases List.mem_append.mp hj with h5 | h6
      · exact hgi j h5
      · exact hgj j h6

/-- Folding group merges preserves a property of every grouped index. -/
theorem foldl_mergeGroups_all (P : Nat → Prop) :
    ∀ (prs : List (Nat × Nat)) (gs : List (List Nat)),
      (∀ g ∈ gs, ∀ j ∈ g, P j) → (∀ q ∈ prs, P q.1 ∧ P q.2) →
      ∀ g ∈ prs.foldl mergeGroups gs, ∀ j ∈ g, P j := by
  intro prs
  induction prs with
  | nil => intro gs hgs _; exact hgs
  | cons q rest ih =>
    intro gs hgs hprs
    rw [List.foldl_cons]
    exact ih (mergeGroups gs q)
      (mergeGroups_all P gs q hgs (hprs q (List.mem_cons_self _ _)).1
        (hprs q (List.mem_cons_self _ _)).2)
      (fun q2 hq2 => hprs q2 (List.mem_cons_of_mem _ hq2))

/-- The multiset intersection size never exceeds the union size. -/
theorem interUnion_le (a b : List String) : (interUnion a b).1 ≤ (interUnion a b).2 := by
  unfold interUnion
  generalize (a ++ b).eraseDups = keys
  have hbase : (0, 0).1 ≤ ((0, 0) : Nat × Nat).2 := Nat.le_refl 0
  generalize hacc : ((0, 0) : Nat × Nat) = acc at hbase ⊢
  clear hacc
  induction keys generalizing acc with
  | nil => exact hbase
  | cons k rest ih =>
    rw [List.foldl_cons]
    apply ih
    have : min (a.count k) (b.count k) ≤ max (a.count k) (b.count k) :=
      Nat.le_trans (Nat.min_le_left _ _) (Nat.le_max_left _ _)
    simp only
    omega

/-- The rounded similarity percentage is at most 100. -/
theorem jaccardPct_le (a b : List String) : jaccardPct a b ≤ 100 := by
  unfold jaccardPct
  simp only []
  split
  · exact Nat.zero_le 100
  · rename_i hz
    have hle := interUnion_le a b
    have hu : (interUnion a b).2 ≠ 0 := by simpa using hz
    rw [Nat.div_le_iff_le_mul_add_pred (by omega)]
    omega

/-- Digit-count bound valid for every number. -/
theorem decChars_len_le (n : Nat) : (decChars n).length ≤ 3 + n / 250 := by
  by_cases h : n ≤ 999
  · have := decChars_le_three n h
    omega
  · have := decChars_le_div n (by omega)
    omega

/-- Exact length of an exact-duplicate reference. -/
theorem mkDupRef_length (kid : String) (len : Nat) :
    (mkDupRef kid len).length = 22 + kid.length + (decChars len).length := by
  unfold mkDupRef
  simp only [String.length_append]
  have h1 : ("[cce:dup of " : String).length = 12 := by decide
  have h2 : (" — " : String).length = 3 := by decide
  have h3 : (" chars]" : String).length = 7 := by decide
  have h4 : (dec len).length = (decChars len).length := rfl
  rw [h1, h2, h3, h4]
  omega

/-- Exact length of a near-duplicate reference. -/
theorem mkNearDupRef_length (kid : String) (len pct : Nat) :
    (mkNearDupRef kid len pct).length
      = 37 + kid.length + (decChars len).length + (decChars pct).length := by
  unfold mkNearDupRef
  simp only [String.length_append]
  have h1 : ("[cce:near-dup of " : String).length = 17 := by decide
  have h2 : (" — " : String).length = 3 := by decide
  have h3 : (" chars, ~" : String).length = 9 := by decide
  have h4 : ("% match]" : String).length = 8 := by decide
  have h5 : (dec len).length = (decChars len).length := rfl
  have h6 : (dec pct).length = (decChars pct).length := rfl
  rw [h1, h2, h3, h4, h5, h6]
  omega

/-- An exact-duplicate reference to a short-id keep target is shorter than
the 200-plus-character duplicate it replaces. -/
theorem mkDupRef_le (kid : String) (len : Nat) (hk : kid.length ≤ 130)
    (hl : 200 ≤ len) : (mkDupRef kid len).length ≤ len := by
  rw [mkDupRef_length]
  have := decChars_len_le len
  omega

/-- A near-duplicate reference to a short-id keep target is shorter than
the 200-plus-character near duplicate it replaces. -/
theorem mkNearDupRef_le (kid : String) (len pct : Nat) (hk : kid.length ≤ 130)
    (hl : 200 ≤ len) (hp : pct ≤ 100) : (mkNearDupRef kid len pct).length ≤ len := by
  rw [mkNearDupRef_length]
  have h1 := decChars_len_le len
  have h2 := decChars_le_three pct (by omega)
  omega

/-- Under unique ids, the recorded original length of a member is its
content length. -/
theorem origContentLen_of_mem (msgs : List Message) (m : Message) (hm : m ∈ msgs)
    (hnd : (msgs.map Message.id).Nodup) :
    origContentLen msgs m.id = m.content.length := by
  unfold origContentLen
  cases hf : msgs.find? (fun m2 => m2.id == m.id) with
  | none =>
    exfalso
    have := List.find?_eq_none.mp hf m hm
    simp at this
  | some m2 =>
    have hmem2 := List.mem_of_find?_eq_some hf
    have hid : m2.id = m.id := by
      have := List.find?_some hf
      simpa using this
    have : m2 = m := List.inj_on_of_nodup_map hnd hmem2 hm hid
    rw [this]

/-- A dup-reference verdict can only come from a dedup mark. -/
theorem verdictOf_dupRef (opts : CompressOptions) (rw n : Nat)
    (marks : Nat → Option DMark) (i : Nat) (m : Message) (r : String)
    (h : verdictOf opts rw n marks i m = Verdict.dupRef r) :
    marks i = some (DMark.dup r) := by
  unfold verdictOf at h
  split at h
  · exact Verdict.noConfusion h
  · split at h
    · rename_i heq
      injection h with h2
      rw [heq, h2]
    · exact Verdict.noConfusion h
    · split_ifs at h

/-- A successful association-list lookup is a member. -/
theorem lookup_mem_nat {β : Type} :
    ∀ (l : List (Nat × β)) (k : Nat) (v : β), l.lookup k = some v → (k, v) ∈ l := by
  intro l
  induction l with
  | nil => intro k v h; simp [List.lookup] at h
  | cons x xs ih =>
    intro k v h
    obtain ⟨a, b⟩ := x
    rw [List.lookup] at h
    split at h
    · rename_i hbeq
      have hk : k = a := by simpa using hbeq
      injection h with h2
      rw [hk, h2]
      exact List.mem_cons_self _ _
    · exact List.mem_cons_of_mem _ (ih k v h)

/-- Every exact-dedup replacement mark points at a 200-plus-character
source at its own index and renders the wire-format reference to a keep
target drawn from the inputs. -/
theorem exactMarks_dup (opts : CompressOptions) (rw n : Nat) (msgs : List Message)
    (i : Nat) (r : String)
    (h : (i, DMark.dup r) ∈ exactMarks opts rw n msgs.enum) :
    ∃ src, (i, src) ∈ msgs.enum ∧ 200 ≤ src.content.length
      ∧ ∃ keep ∈ msgs, r = mkDupRef keep.id src.content.length := by
  unfold exactMarks at h
  obtain ⟨c, _, h2⟩ := List.mem_flatMap.mp h
  simp only [] at h2
  split at h2
  · obtain ⟨p, hp, h3⟩ := List.mem_flatMap.mp h2
    have hpelig : p ∈ msgs.enum.filter (fun q => dedupEligible opts q.2) :=
      List.mem_of_mem_filter hp
    have hpxs : p ∈ msgs.enum := List.mem_of_mem_filter hpelig
    have hpE := (List.mem_filter.mp hpelig).2
    have hp200 : 200 ≤ p.2.content.length := by
      simp only [dedupEligible, Bool.and_eq_true, decide_eq_true_eq] at hpE
      exact hpE.2
    have hkmem : keepOf n rw ((msgs.enum.filter (fun q => dedupEligible opts q.2)).filter
        (fun q => q.2.content == c)) ∈
        (msgs.enum.filter (fun q => dedupEligible opts q.2)).filter
        (fun q => q.2.content == c) :=
      keepOf_mem n rw _ (List.ne_nil_of_mem hp)
    have hkxs : keepOf n rw ((msgs.enum.filter (fun q => dedupEligible opts q.2)).filter
        (fun q => q.2.content == c)) ∈ msgs.enum :=
      List.mem_of_mem_filter (List.mem_of_mem_filter hkmem)
    have hkmsg : (keepOf n rw ((msgs.enum.filter (fun q => dedupEligible opts q.2)).filter
        (fun q => q.2.content == c))).2 ∈ msgs := by
      have := List.mem_map_of_mem Prod.snd hkxs
      rwa [List.enum_map_snd] at this
    split at h3
    · simp at h3
    · rw [List.mem_singleton] at h3
      have hi : i = p.1 := congrArg Prod.fst h3
      have hr : DMark.dup r = DMark.dup (mkDupRef (keepOf n rw
          ((msgs.enum.filter (fun q => dedupEligible opts q.2)).filter
            (fun q => q.2.content == c))).2.id p.2.content.length) :=
        congrArg Prod.snd h3
      injection hr with hr2
      refine ⟨p.2, ?_, hp200, _, hkmsg, hr2⟩
      rw [hi]
      exact hpxs
  · simp at h2

/-- Every fuzzy-dedup replacement mark points at a 200-plus-character
source at its own index and renders the wire-format near-duplicate
reference, with a percentage of at most 100, to a keep target drawn from
the inputs. -/
theorem fuzzyMarks_dup (opts : CompressOptions) (rw n : Nat) (msgs : List Message)
    (exact0 : List (Nat × DMark)) (i : Nat) (r : String)
    (h : (i, DMark.dup r) ∈ fuzzyMarks opts rw n msgs.enum exact0) :
    ∃ src, (i, src) ∈ msgs.enum ∧ 200 ≤ src.content.length
      ∧ ∃ keep ∈ msgs, ∃ pct, pct ≤ 100
        ∧ r = mkNearDupRef keep.id src.content.length pct := by
  unfold fuzzyMarks at h
  obtain ⟨g, hg, h2⟩ := List.mem_flatMap.mp h
  simp only [] at h2
  have hglaw : ∀ j ∈ g, ∃ q, q ∈ msgs.enum.filter (fun p =>
      dedupEligible opts p.2 && (exact0.lookup p.1).isNone
        && decide ((normLines p.2.content).length ≥ 2)) ∧ q.1 = j := by
    refine foldl_mergeGroups_all
      (fun j => ∃ q, q ∈ msgs.enum.filter (fun p =>
        dedupEligible opts p.2 && (exact0.lookup p.1).isNone
          && decide ((normLines p.2.content).length ≥ 2)) ∧ q.1 = j)
      _ _ ?_ ?_ g hg
    · intro g2 hg2 j hj
      obtain ⟨q, hq, he⟩ := List.mem_map.mp hg2
      rw [← he] at hj
      rw [List.mem_singleton] at hj
      exact ⟨q, hq, hj.symm⟩
    · intro q hq
      obtain ⟨q2, hq2, he⟩ := List.mem_map.mp hq
      have hcomp := forwardPairs_mem _ _ _ (List.mem_of_mem_filter hq2)
      constructor
      · exact ⟨q2.1, hcomp.1, by rw [← he]⟩
      · exact ⟨q2.2, hcomp.2, by rw [← he]⟩
  split at h2
  · obtain ⟨p, hp, h3⟩ := List.mem_flatMap.mp h2
    obtain ⟨j, hj, hjm⟩ := List.mem_filterMap.mp hp
    have hjg : j ∈ g := (sortBy_perm _ _).mem_iff.mp hj
    obtain ⟨q, hqf, hqj⟩ := hglaw j hjg
    have hqxs : q ∈ msgs.enum := List.mem_of_mem_filter hqf
    have hqE := (List.mem_filter.mp hqf).2
    have hq200 : 200 ≤ q.2.content.length := by
      simp only [dedupEligible, Bool.and_eq_true, decide_eq_true_eq] at hqE
      exact hqE.1.1.2
    cases hl : msgs.enum.lookup j with
    | none => rw [hl] at hjm; simp at hjm
    | some m =>
      rw [hl] at hjm
      simp only [Option.map_some'] at hjm
      have hpm : p = (j, m) := by
        cases hjm
        rfl
      have hjmxs : (j, m) ∈ msgs.enum := lookup_mem_nat msgs.enum j m hl
      have hmq : m = q.2 := by
        have h4 : msgs.getD j default = m := enum_getD msgs (j, m) hjmxs
        have h5 : msgs.getD j default = q.2 := by
          have h6 := enum_getD msgs q hqxs
          rw [hqj] at h6
          exact h6
        rw [← h4]
        exact h5
      have hp200 : 200 ≤ p.2.content.length := by
        rw [hpm]
        simpa [hmq] using hq200
    -- the keep target
      split at h3
      · simp at h3
      · rw [List.mem_singleton] at h3
        have hi : i = p.1 := congrArg Prod.fst h3
        have hr := congrArg Prod.snd h3
        simp only [] at hr
        injection hr with hr2
        have hknil : ((sortBy (fun a b => a ≤ b) g).filterMap
            (fun i2 => (msgs.enum.lookup i2).map fun m2 => (i2, m2))) ≠ [] :=
          List.ne_nil_of_mem hp
        have hkmem := keepOf_mem n rw _ hknil
        obtain ⟨jk, hjk, hjkm⟩ := List.mem_filterMap.mp hkmem
        cases hlk : msgs.enum.lookup jk with
        | none => rw [hlk] at hjkm; simp at hjkm
        | some mk2 =>
          rw [hlk] at hjkm
          simp only [Option.map_some'] at hjkm
          have hkxs : (jk, mk2) ∈ msgs.enum := lookup_mem_nat msgs.enum jk mk2 hlk
          have hkmsg : (keepOf n rw ((sortBy (fun a b => a ≤ b) g).filterMap
              (fun i2 => (msgs.enum.lookup i2).map fun m2 => (i2, m2)))).2 ∈ msgs := by
            have h6 : (keepOf n rw ((sortBy (fun a b => a ≤ b) g).filterMap
                (fun i2 => (msgs.enum.lookup i2).map fun m2 => (i2, m2)))) = (jk, mk2) :=
              (Option.some.inj hjkm).symm
            rw [h6]
            have := List.mem_map_of_mem Prod.snd hkxs
            rwa [List.enum_map_snd] at this
          refine ⟨p.2, ?_, hp200, _, hkmsg, _, jaccardPct_le _ _, hr2⟩
          rw [hi]
          rw [hpm]
          exact hjmxs
  · simp at h2

/-- Every dedup replacement mark of a run points at a 200-plus-character
source at its own index and renders one of the two wire-format references
to a keep target drawn from the inputs. -/
theorem dedupMarks_dup (opts : CompressOptions) (rw n : Nat) (msgs : List Message)
    (i : Nat) (r : String)
    (h : (i, DMark.dup r) ∈ dedupMarks opts rw n msgs.enum) :
    ∃ src, (i, src) ∈ msgs.enum ∧ 200 ≤ src.content.length
      ∧ ∃ keep ∈ msgs, (r = mkDupRef keep.id src.content.length
        ∨ ∃ pct, pct ≤ 100 ∧ r = mkNearDupRef keep.id src.content.length pct) := by
  unfold dedupMarks at h
  simp only [] at h
  rcases List.mem_append.mp h with h1 | h2
  · split at h1
    · obtain ⟨src, hsrc, h200, keep, hkeep, hr⟩ := exactMarks_dup opts rw n msgs i r h1
      exact ⟨src, hsrc, h200, keep, hkeep, Or.inl hr⟩
    · simp at h1
  · split at h2
    · obtain ⟨src, hsrc, h200, keep, hkeep, pct, hpct, hr⟩ :=
        fuzzyMarks_dup opts rw n msgs _ i r h2
      exact ⟨src, hsrc, h200, keep, hkeep, Or.inr ⟨pct, hpct, hr⟩⟩
    · simp at h2

/-- C3 (amended): with force-converge off, provenance-free input, unique
ids, and ids of at most 130 characters, every emitted message carrying
provenance has content no longer than the sum of the content lengths of
the inputs it replaces.  Force-converge truncation breaks the guard for
contents of 513 to 536 characters, whose truncation wire format is
longer than the original. -/
theorem c3_size_guard (msgs : List Message) (opts : CompressOptions)
    (hfc : opts.forceConverge = false)
    (hfree : ∀ m ∈ msgs, m.prov = none)
    (hnd : (msgs.map Message.id).Nodup)
    (hid : ∀ m ∈ msgs, m.id.length ≤ 130) :
    ∀ m ∈ (compress msgs opts).messages, ∀ p, m.prov = some p →
      m.content.length ≤ (p.ids.map (origContentLen msgs)).sum := by
  rcases compress_structure msgs opts with ⟨hm, _, _⟩ | ⟨w, hm, _, _⟩ | ⟨_, _, hfc2, _, _, _⟩
  · rw [hm]
    intro m hmem p hp
    rw [hfree m hmem] at hp
    cases hp
  · rw [hm]
    intro m hmem p hp
    unfold pipeMessages runItems at hmem
    obtain ⟨it, hit, hr⟩ := List.mem_map.mp hmem
    cases it with
    | pass m0 =>
      have hmem0 := mem_of_item_member _ _ _ _ hit m0 (by simp [itemMembers])
      rw [List.enum_map_snd] at hmem0
      rw [← hr] at hp
      simp only [renderItem] at hp
      rw [hfree m0 hmem0] at hp
      cases hp
    | rewrite mem c =>
      have hc : m.content = c := by
        rw [← hr]
        rfl
      have hp2 : (⟨mem.map Message.id, mkSummaryId (mem.map Message.id),
          collectParentIds mem, opts.sourceVersion⟩ : CceOriginal) = p := by
        rw [← hr] at hp
        simpa [renderItem, emitRewrite] using hp
      have hpids : p.ids = mem.map Message.id := by
        rw [← hp2]
      rw [hc, hpids, List.map_map]
      have hmems : ∀ x ∈ mem, x ∈ msgs := by
        intro x hx
        have := mem_of_item_member _ _ _ _ hit x (by simpa [itemMembers] using hx)
        rwa [List.enum_map_snd] at this
      have hsum : mem.map (origContentLen msgs ∘ Message.id)
          = mem.map (fun x => x.content.length) :=
        List.map_congr_left fun x hx => origContentLen_of_mem msgs x (hmems x hx) hnd
      rw [hsum]
      rcases walkItems_item_cases opts _ msgs.enum (PlanItem.rewrite mem c) hit with
        ⟨m1, he, _⟩ | ⟨p1, hp1, r1, he, hv⟩ | ⟨p1, hp1, he, hlt⟩ | ⟨mem1, he, _, hlt, _⟩
      · exact absurd he (by simp)
      · injection he with he1 he2
        have hmark := verdictOf_dupRef _ _ _ _ _ _ _ hv
        simp only [] at hmark
        have hmem2 := lookup_mem_nat _ _ _ hmark
        obtain ⟨src, hsrc, h200, keep, hkeep, hror⟩ :=
          dedupMarks_dup opts w msgs.length msgs _ _ hmem2
        have hsp : src = p1.2 := by
          have h4 : msgs.getD p1.1 default = src := enum_getD msgs (p1.1, src) hsrc
          have h5 : msgs.getD p1.1 default = p1.2 := enum_getD msgs p1 hp1
          rw [← h4]
          exact h5
        have hkid : keep.id.length ≤ 130 := hid keep hkeep
        have hb : r1.length ≤ src.content.length := by
          rcases hror with hre | ⟨pct, hpct, hre⟩
          · rw [hre]
            exact mkDupRef_le _ _ hkid h200
          · rw [hre]
            exact mkNearDupRef_le _ _ _ hkid h200 hpct
        rw [he1, he2]
        rw [hsp] at hb
        simp only [List.map_cons, List.map_nil, List.sum_cons, List.sum_nil]
        omega
      · injection he with he1 he2
        rw [he1, he2]
        simp only [List.map_cons, List.map_nil, List.sum_cons, List.sum_nil]
        omega
      · injection he with he1 he2
        rw [he1, he2]
        exact Nat.le_of_lt hlt
  · rw [hfc] at hfc2
    exact absurd hfc2 (by simp)

/-- The defaulted head of a nonempty list is a member. -/
theorem headD_mem (l : List Message) (h : l ≠ []) : l.headD default ∈ l := by
  cases l with
  | nil => exact absurd rfl h
  | cons x xs => exact List.mem_cons_self _ _

/-- C3 witness: the size guard instantiated at the summary message merging
the pair, whose 161-character content stays below the 260 combined input
characters it covers. -/
theorem c3_size_guard_witness :
    ((compress pairMsgs optsRw0).messages.headD default).content.length
      ≤ ((["1", "2"] : List String).map (origContentLen pairMsgs)).sum :=
  c3_size_guard pairMsgs optsRw0 rfl (by decide) (by decide) (by decide)
    ((compress pairMsgs optsRw0).messages.headD default)
    (headD_mem _ (by decide))
    ⟨["1", "2"], mkSummaryId ["1", "2"], [], 0⟩
    (by decide)

/-- C3 counterexample: the force-converge truncation of a 513-character
pass-through carries provenance over exactly that input but is 537
characters long, exceeding the sum of the covered originals. -/
theorem c3_counterexample :
    ((compress [longPassMsg] fcOpts).messages.headD default).prov
        = some ⟨["x"], mkSummaryId ["x"], [], 0⟩
      ∧ ((["x"] : List String).map (origContentLen [longPassMsg])).sum = 513
      ∧ ((compress [longPassMsg] fcOpts).messages.headD default).content.length = 537 := by
  refine ⟨by decide, by decide, by decide⟩

/-! ## C1: round trip -/

/-- Under unique ids, searching a member by its id finds it. -/
theorem find_id_of_mem (msgs : List Message) (m : Message) (hm : m ∈ msgs)
    (hnd : (msgs.map Message.id).Nodup) :
    msgs.find? (fun m2 => m2.id == m.id) = some m := by
  cases hf : msgs.find? (fun m2 => m2.id == m.id) with
  | none =>
    exfalso
    have := List.find?_eq_none.mp hf m hm
    simp at this
  | some m2 =>
    have hmem2 := List.mem_of_find?_eq_some hf
    have hid : m2.id = m.id := by
      have := List.find?_some hf
      simpa using this
    rw [List.inj_on_of_nodup_map hnd hmem2 hm hid]

/-- A filterMap over pointwise-resolving keys is the map of the values. -/
theorem filterMap_eq_map_of {α β : Type} (s : α → Option β) (f : α → β) :
    ∀ l : List α, (∀ i ∈ l, s i = some (f i)) → l.filterMap s = l.map f := by
  intro l
  induction l with
  | nil => intro _; rfl
  | cons x xs ih =>
    intro h
    rw [List.filterMap_cons_some (h x (List.mem_cons_self _ _)), List.map_cons,
      ih fun i hi => h i (List.mem_cons_of_mem _ hi)]

/-- The decompressor concatenates the per-message expansions. -/
theorem uncompress_flatMap (store : String → Option Message) :
    ∀ ms : List Message,
      (uncompress ms store).messages = ms.flatMap (fun m => (expandOne store m).1)
        ∧ (uncompress ms store).missingIds
          = ms.flatMap (fun m => (expandOne store m).2.2.2) := by
  intro ms
  induction ms with
  | nil => exact ⟨rfl, rfl⟩
  | cons m rest ih =>
    rw [uncompress_cons, List.flatMap_cons, List.flatMap_cons]
    exact ⟨by rw [← ih.1], by rw [← ih.2]⟩

/-- Pointwise sublists concatenate to a sublist. -/
theorem flatMap_sublist {α β : Type} (f g : α → List β)
    (h : ∀ a, List.Sublist (f a) (g a)) :
    ∀ l : List α, List.Sublist (l.flatMap f) (l.flatMap g) := by
  intro l
  induction l with
  | nil => exact List.Sublist.refl _
  | cons x xs ih =>
    rw [List.flatMap_cons, List.flatMap_cons]
    exact List.Sublist.append (h x) ih

/-- The verbatim keys of one run are drawn without repetition from the
input ids, in order. -/
theorem pipeVerbatim_keys_sublist (msgs : List Message) (opts : CompressOptions)
    (w : Nat) :
    List.Sublist ((pipeVerbatim msgs opts w).map Prod.fst) (msgs.map Message.id) := by
  unfold pipeVerbatim runItems
  rw [List.map_flatMap]
  have h1 : ∀ it : PlanItem,
      List.Sublist ((itemVerbatim it).map Prod.fst) ((itemMembers it).map Message.id) := by
    intro it
    cases it with
    | pass m =>
      rw [itemVerbatim, itemMembers]
      simp
    | rewrite mem c =>
      rw [itemVerbatim, itemMembers, List.map_map]
      exact List.Sublist.refl _
  have h2 := flatMap_sublist _ _ h1
    (walkItems opts (fun i m => verdictOf opts w msgs.length
      (fun j => (dedupMarks opts w msgs.length msgs.enum).lookup j) i m) msgs.enum)
  have h3 := congrArg (List.map Message.id)
    (walkItems_members opts (fun i m => verdictOf opts w msgs.length
      (fun j => (dedupMarks opts w msgs.length msgs.enum).lookup j) i m) msgs.enum)
  rw [List.map_flatMap, List.enum_map_snd] at h3
  rw [← h3]
  exact h2

/-- In an association list with unique keys, lookup finds any member. -/
theorem lookup_of_mem_nodup :
    ∀ (l : List (String × Message)), (l.map Prod.fst).Nodup →
      ∀ (k : String) (v : Message), (k, v) ∈ l → l.lookup k = some v := by
  intro l
  induction l with
  | nil => intro _ k v h; simp at h
  | cons x xs ih =>
    intro hnd k v h
    obtain ⟨a, b⟩ := x
    rw [List.map_cons] at hnd
    rcases List.mem_cons.mp h with heq | hmem
    · have hk : k = a := congrArg Prod.fst heq
      have hv : v = b := congrArg Prod.snd heq
      have hbeq : (k == a) = true := by simp [hk]
      rw [List.lookup, hbeq, hv]
    · have hka : ¬ k = a := by
        intro hk
        have : a ∈ xs.map Prod.fst := by
          rw [← hk]
          exact List.mem_map_of_mem Prod.fst hmem
        exact (List.nodup_cons.mp hnd).1 this
      have hbeq : (k == a) = false := by simpa using hka
      rw [List.lookup, hbeq]
      exact ih (List.nodup_cons.mp hnd).2 k v hmem

/-- A successful lookup survives appending entries on the right. -/
theorem lookup_append_some {β : Type} :
    ∀ (l l2 : List (String × β)) (k : String) (v : β),
      l.lookup k = some v → (l ++ l2).lookup k = some v := by
  intro l
  induction l with
  | nil => intro l2 k v h; simp [List.lookup] at h
  | cons x xs ih =>
    intro l2 k v h
    obtain ⟨a, b⟩ := x
    rw [List.lookup] at h
    rw [List.cons_append, List.lookup]
    split at h
    · exact h
    · exact ih l2 k v h

/-- A lookup skips a prefix holding none of its key. -/
theorem lookup_append_fresh {β : Type} :
    ∀ (l l2 : List (String × β)) (k : String), k ∉ l.map Prod.fst →
      (l ++ l2).lookup k = l2.lookup k := by
  intro l
  induction l with
  | nil => intro l2 k _; rfl
  | cons x xs ih =>
    intro l2 k h
    obtain ⟨a, b⟩ := x
    rw [List.map_cons] at h
    have hbeq : (k == a) = false := by
      simp only [beq_eq_false_iff_ne, ne_eq]
      intro hk
      exact h (hk ▸ List.mem_cons_self _ _)
    rw [List.cons_append, List.lookup, hbeq]
    exact ih l2 k (fun h2 => h (List.mem_cons_of_mem _ h2))

/-- Two distinct members of a list with nodup concatenated images have
disjoint images. -/
theorem flatMap_nodup_distinct {α β : Type} (f : α → List β) (l : List α)
    (hnd : (l.flatMap f).Nodup) :
    ∀ a ∈ l, ∀ b ∈ l, a ≠ b → ∀ x, x ∈ f a → x ∈ f b → False := by
  induction l with
  | nil => intro a ha; simp at ha
  | cons h t ih =>
    rw [List.flatMap_cons] at hnd
    intro a ha b hb hab x hxa hxb
    have hdisj := List.disjoint_of_nodup_append hnd
    rcases List.mem_cons.mp ha with rfl | hat
    · rcases List.mem_cons.mp hb with rfl | hbt
      · exact hab rfl
      · exact hdisj hxa (List.mem_flatMap.mpr ⟨b, hbt, hxb⟩)
    · rcases List.mem_cons.mp hb with rfl | hbt
      · exact hdisj hxb (List.mem_flatMap.mpr ⟨a, hat, hxa⟩)
      · exact ih (hnd.of_append_right) a hat b hbt hab x hxa hxb

/-- Enumeration positions are below the length. -/
theorem mem_enum_lt (l : List Message) (p : Nat × Message) (h : p ∈ l.enum) :
    p.1 < l.length := by
  have := List.mem_map_of_mem Prod.fst h
  rw [List.enum_map_fst] at this
  exact List.mem_range.mp this

/-- Truncation always leaves provenance present. -/
theorem truncMsg_prov_ne (opts : CompressOptions) (m : Message) :
    (truncMsg opts m).prov ≠ none := by
  unfold truncMsg
  cases hm : m.prov <;> simp

/-- A provenance-free emitted message of a run is an input message. -/
theorem pipeMessages_none_mem (msgs : List Message) (opts : CompressOptions)
    (w : Nat) :
    ∀ m ∈ pipeMessages msgs opts w, m.prov = none → m ∈ msgs := by
  intro m hm hnone
  unfold pipeMessages runItems at hm
  obtain ⟨it, hit, hr⟩ := List.mem_map.mp hm
  cases it with
  | pass m0 =>
    have : m0 = m := hr
    rw [← this]
    have hmem := mem_of_item_member _ _ _ _ hit m0 (by simp [itemMembers])
    rwa [List.enum_map_snd] at hmem
  | rewrite mem c =>
    rw [← hr] at hnone
    simp [renderItem, emitRewrite] at hnone

/-- A provenance-free emitted message of a run comes from a pass item. -/
theorem pipeMessages_none_pass (msgs : List Message) (opts : CompressOptions)
    (w : Nat) :
    ∀ m ∈ pipeMessages msgs opts w, m.prov = none →
      PlanItem.pass m ∈ walkItems opts (fun i m2 => verdictOf opts w msgs.length
        (fun j => (dedupMarks opts w msgs.length msgs.enum).lookup j) i m2) msgs.enum := by
  intro m hm hnone
  unfold pipeMessages runItems at hm
  obtain ⟨it, hit, hr⟩ := List.mem_map.mp hm
  cases it with
  | pass m0 =>
    have : m0 = m := hr
    rwa [this] at hit
  | rewrite mem c =>
    rw [← hr] at hnone
    simp [renderItem, emitRewrite] at hnone

/-- The items of a run cover the input ids without repetition. -/
theorem runItems_ids_nodup (msgs : List Message) (opts : CompressOptions)
    (w : Nat) (hnd : (msgs.map Message.id).Nodup) :
    ((walkItems opts (fun i m2 => verdictOf opts w msgs.length
        (fun j => (dedupMarks opts w msgs.length msgs.enum).lookup j) i m2)
      msgs.enum).flatMap fun it => (itemMembers it).map Message.id).Nodup := by
  have h3 := congrArg (List.map Message.id)
    (walkItems_members opts (fun i m => verdictOf opts w msgs.length
      (fun j => (dedupMarks opts w msgs.length msgs.enum).lookup j) i m) msgs.enum)
  rw [List.map_flatMap, List.enum_map_snd] at h3
  rw [h3]
  exact hnd

/-- The id of a provenance-free emitted message never occurs among the
verbatim keys of the run. -/
theorem pipeMessages_none_fresh (msgs : List Message) (opts : CompressOptions)
    (w : Nat) (hnd : (msgs.map Message.id).Nodup) :
    ∀ m ∈ pipeMessages msgs opts w, m.prov = none →
      m.id ∉ (pipeVerbatim msgs opts w).map Prod.fst := by
  intro m hm hnone hkey
  have hpass := pipeMessages_none_pass msgs opts w m hm hnone
  unfold pipeVerbatim runItems at hkey
  rw [List.map_flatMap] at hkey
  obtain ⟨it, hit, hkey2⟩ := List.mem_flatMap.mp hkey
  cases it with
  | pass m0 => simp [itemVerbatim] at hkey2
  | rewrite mem c =>
    rw [itemVerbatim, List.map_map] at hkey2
    refine flatMap_nodup_distinct (fun it => (itemMembers it).map Message.id) _
      (runItems_ids_nodup msgs opts w hnd) (PlanItem.pass m) hpass
      (PlanItem.rewrite mem c) hit (by simp) m.id ?_ ?_
    · simp [itemMembers]
    · simpa [itemMembers] using hkey2

/-- The verbatim store of a run resolves every provenance id of its
output to the input message carrying that id. -/
theorem pipeMessages_lookup (msgs : List Message) (opts : CompressOptions)
    (w : Nat) (hfree : ∀ m ∈ msgs, m.prov = none)
    (hnd : (msgs.map Message.id).Nodup) :
    ∀ m ∈ pipeMessages msgs opts w, ∀ p, m.prov = some p → ∀ id2 ∈ p.ids,
      ∃ x, (pipeVerbatim msgs opts w).lookup id2 = some x
        ∧ msgs.find? (fun m2 => m2.id == id2) = some x := by
  intro m hm p hp id2 hid2
  unfold pipeMessages runItems at hm
  obtain ⟨it, hit, hr⟩ := List.mem_map.mp hm
  cases it with
  | pass m0 =>
    have he : m0 = m := hr
    have hmem := mem_of_item_member _ _ _ _ hit m0 (by simp [itemMembers])
    rw [List.enum_map_snd] at hmem
    have hnone : m.prov = none := he ▸ hfree m0 hmem
    rw [hnone] at hp
    cases hp
  | rewrite mem c =>
    have hp2 : (⟨mem.map Message.id, mkSummaryId (mem.map Message.id),
        collectParentIds mem, opts.sourceVersion⟩ : CceOriginal) = p := by
      rw [← hr] at hp
      simpa [renderItem, emitRewrite] using hp
    have hpids : p.ids = mem.map Message.id := by
      rw [← hp2]
    rw [hpids] at hid2
    obtain ⟨x, hx, hxid⟩ := List.mem_map.mp hid2
    have hxmsgs : x ∈ msgs := by
      have := mem_of_item_member _ _ _ _ hit x (by simpa [itemMembers] using hx)
      rwa [List.enum_map_snd] at this
    refine ⟨x, ?_, ?_⟩
    · apply lookup_of_mem_nodup
      · exact List.Nodup.sublist (pipeVerbatim_keys_sublist msgs opts w) hnd
      · unfold pipeVerbatim runItems
        refine List.mem_flatMap.mpr ⟨PlanItem.rewrite mem c, hit, ?_⟩
        rw [itemVerbatim]
        rw [← hxid]
        exact List.mem_map_of_mem _ hx
    · rw [← hxid]
      exact find_id_of_mem msgs x hxmsgs hnd

/-- Generic restoration: when the emitted covered ids enumerate the input
ids, provenance-free emissions are inputs findable by id, and every
provenance id resolves through the store to the input found by id, the
decompressor restores the input exactly with no missing ids. -/
theorem restore_of_conditions (msgs : List Message)
    (hnd : (msgs.map Message.id).Nodup)
    (fin : List Message) (s : String → Option Message)
    (hcov : fin.flatMap coveredIds = msgs.map Message.id)
    (hO2 : ∀ m ∈ fin, m.prov = none → m ∈ msgs)
    (hO1 : ∀ m ∈ fin, ∀ p, m.prov = some p → ∀ id2 ∈ p.ids,
      ∃ x, s id2 = some x ∧ msgs.find? (fun m2 => m2.id == id2) = some x) :
    (uncompress fin s).messages = msgs ∧ (uncompress fin s).missingIds = [] := by
  have hstep : ∀ m ∈ fin,
      (expandOne s m).1 = (coveredIds m).map
        (fun i => (msgs.find? (fun m2 => m2.id == i)).getD default)
        ∧ (expandOne s m).2.2.2 = [] := by
    intro m hm
    cases hprov : m.prov with
    | none =>
      have hfind := find_id_of_mem msgs m (hO2 m hm hprov) hnd
      rw [expandOne, hprov, coveredIds, hprov]
      simp [hfind]
    | some p =>
      have hres := hO1 m hm p hprov
      have hmiss : p.ids.filter (fun i => (s i).isNone) = [] := by
        rw [List.filter_eq_nil_iff]
        intro i hi
        obtain ⟨x, hx, _⟩ := hres i hi
        simp [hx]
      rw [expandOne, hprov, coveredIds, hprov]
      dsimp only
      rw [hmiss]
      simp only [List.isEmpty_nil, if_true]
      refine ⟨?_, trivial⟩
      apply filterMap_eq_map_of
      intro i hi
      obtain ⟨x, hx, hfind⟩ := hres i hi
      rw [hx, hfind]
      rfl
  obtain ⟨hu1, hu2⟩ := uncompress_flatMap s fin
  constructor
  · rw [hu1]
    rw [List.flatMap_congr (fun m hm => (hstep m hm).1)]
    rw [← List.map_flatMap, hcov, List.map_map]
    have : msgs.map ((fun i => (msgs.find? (fun m2 => m2.id == i)).getD default)
        ∘ Message.id) = msgs.map (fun x => x) := by
      apply List.map_congr_left
      intro x hx
      show (msgs.find? (fun m2 => m2.id == x.id)).getD default = x
      rw [find_id_of_mem msgs x hx hnd]
      rfl
    rw [this, List.map_id']
  · rw [hu2]
    rw [List.flatMap_congr (fun m hm => (hstep m hm).2)]
    simp

/-- The force-converge fold preserves the restoration conditions: emitted
provenance-free messages stay inputs, and every provenance id resolves
through the growing verbatim store to the input found by id. -/
theorem fcFold_roundtrip (opts : CompressOptions) (B : Nat) (msgs : List Message)
    (V0 : List (String × Message)) (hnd : (msgs.map Message.id).Nodup) :
    ∀ (elig : List (Nat × Message)) (st : List Message × List (String × Message)),
      (∀ q ∈ elig, q.1 < st.1.length) →
      st.1.flatMap coveredIds = msgs.map Message.id →
      (∀ m ∈ st.1, m.prov = none → m ∈ msgs) →
      (∀ m ∈ st.1, m.prov = none → m.id ∉ (V0 ++ st.2).map Prod.fst) →
      (∀ m ∈ st.1, ∀ p, m.prov = some p → ∀ id2 ∈ p.ids,
        ∃ x, (V0 ++ st.2).lookup id2 = some x
          ∧ msgs.find? (fun m2 => m2.id == id2) = some x) →
      ((∀ m ∈ (fcFold opts B elig st).1, m.prov = none → m ∈ msgs)
        ∧ (∀ m ∈ (fcFold opts B elig st).1, ∀ p, m.prov = some p → ∀ id2 ∈ p.ids,
            ∃ x, (V0 ++ (fcFold opts B elig st).2).lookup id2 = some x
              ∧ msgs.find? (fun m2 => m2.id == id2) = some x)) := by
  intro elig
  induction elig with
  | nil => intro st _ _ h1 _ h3; exact ⟨h1, h3⟩
  | cons q rest ih =>
    intro st helig hcov hmem hfresh hsome
    rw [fcFold]
    split
    · exact ⟨hmem, hsome⟩
    · have hq : q.1 < st.1.length := helig q (List.mem_cons_self _ _)
      have hxmem : st.1.getD q.1 default ∈ st.1 := by
        rw [List.getD_eq_getElem st.1 default hq]
        exact List.getElem_mem hq
      have htmem : truncMsg opts (st.1.getD q.1 default)
          ∈ st.1.set q.1 (truncMsg opts (st.1.getD q.1 default)) := by
        have hlen2 : q.1 < (st.1.set q.1 (truncMsg opts (st.1.getD q.1 default))).length := by
          rw [List.length_set]
          exact hq
        have hgd := getD_set_self st.1 q.1 (truncMsg opts (st.1.getD q.1 default)) hq
        rw [List.getD_eq_getElem _ default hlen2] at hgd
        have hmem3 := List.getElem_mem hlen2
        rwa [hgd] at hmem3
      have hcov2 : (st.1.set q.1 (truncMsg opts (st.1.getD q.1 default))).flatMap coveredIds
          = msgs.map Message.id := by
        rw [flatMap_set_trunc coveredIds opts (coveredIds_truncMsg opts)]
        exact hcov
      have hmem2 : ∀ m ∈ st.1.set q.1 (truncMsg opts (st.1.getD q.1 default)),
          m.prov = none → m ∈ msgs := by
        intro m hm hnone
        rcases List.mem_or_eq_of_mem_set hm with h1 | h1
        · exact hmem m h1 hnone
        · rw [h1] at hnone
          exact absurd hnone (truncMsg_prov_ne opts _)
      have hADDkeys : ∀ m ∈ st.1.set q.1 (truncMsg opts (st.1.getD q.1 default)),
          m.prov = none →
          m.id ∉ ((match (st.1.getD q.1 default).prov with
            | none => [((st.1.getD q.1 default).id, st.1.getD q.1 default)]
            | some _ => ([] : List (String × Message)))).map Prod.fst := by
        intro m hm hnone
        cases hxp : (st.1.getD q.1 default).prov with
        | some p0 => simp
        | none =>
          dsimp only
          simp only [List.map_cons, List.map_nil, List.mem_singleton]
          intro hid
          have hmne : m ≠ truncMsg opts (st.1.getD q.1 default) := by
            intro he
            rw [he] at hnone
            exact truncMsg_prov_ne opts _ hnone
          refine flatMap_nodup_distinct coveredIds _
            (by rw [hcov2]; exact hnd) m hm
            (truncMsg opts (st.1.getD q.1 default)) htmem hmne m.id ?_ ?_
          · rw [coveredIds, hnone]
            exact List.mem_singleton.mpr rfl
          · rw [coveredIds_truncMsg, coveredIds, hxp, hid]
            exact List.mem_singleton.mpr rfl
      have hfresh2 : ∀ m ∈ st.1.set q.1 (truncMsg opts (st.1.getD q.1 default)),
          m.prov = none →
          m.id ∉ (V0 ++ (st.2 ++ (match (st.1.getD q.1 default).prov with
            | none => [((st.1.getD q.1 default).id, st.1.getD q.1 default)]
            | some _ => []))).map Prod.fst := by
        intro m hm hnone
        have hm1 : m ∈ st.1 := by
          rcases List.mem_or_eq_of_mem_set hm with h1 | h1
          · exact h1
          · rw [h1] at hnone
            exact absurd hnone (truncMsg_prov_ne opts _)
        have hold := hfresh m hm1 hnone
        have hadd := hADDkeys m hm hnone
        rw [← List.append_assoc, List.map_append, List.mem_append]
        intro hcase
        rcases hcase with h1 | h1
        · exact hold h1
        · exact hadd h1
      have hsome2 : ∀ m ∈ st.1.set q.1 (truncMsg opts (st.1.getD q.1 default)),
          ∀ p, m.prov = some p → ∀ id2 ∈ p.ids,
          ∃ x, (V0 ++ (st.2 ++ (match (st.1.getD q.1 default).prov with
            | none => [((st.1.getD q.1 default).id, st.1.getD q.1 default)]
            | some _ => []))).lookup id2 = some x
            ∧ msgs.find? (fun m2 => m2.id == id2) = some x := by
        intro m hm p hp id2 hid2
        rcases List.mem_or_eq_of_mem_set hm with h1 | h1
        · obtain ⟨x, hlook, hfind⟩ := hsome m h1 p hp id2 hid2
          exact ⟨x, by rw [← List.append_assoc]; exact lookup_append_some _ _ _ _ hlook, hfind⟩
        · cases hxp : (st.1.getD q.1 default).prov with
          | some p0 =>
            have hpp : p = p0 := by
              rw [h1] at hp
              unfold truncMsg at hp
              rw [hxp] at hp
              simp only at hp
              exact (Option.some.inj hp).symm
            obtain ⟨x, hlook, hfind⟩ := hsome _ hxmem p0 hxp id2 (hpp ▸ hid2)
            exact ⟨x, by rw [← List.append_assoc]; exact lookup_append_some _ _ _ _ hlook, hfind⟩
          | none =>
            have hpids : p.ids = [(st.1.getD q.1 default).id] := by
              rw [h1] at hp
              unfold truncMsg at hp
              rw [hxp] at hp
              simp only at hp
              rw [← Option.some.inj hp]
            rw [hpids, List.mem_singleton] at hid2
            refine ⟨st.1.getD q.1 default, ?_, ?_⟩
            · rw [hid2]
              dsimp only
              rw [← List.append_assoc]
              rw [lookup_append_fresh _ _ _ ?_]
              · rw [List.lookup, beq_self_eq_true]
              · exact hfresh _ hxmem hxp
            · rw [hid2]
              exact find_id_of_mem msgs _ (hmem _ hxmem hxp) hnd
      refine ih _ ?_ hcov2 hmem2 hfresh2 hsome2
      intro q2 hq2
      rw [List.length_set]
      exact helig q2 (List.mem_cons_of_mem _ hq2)

/-- C1 (amended): for provenance-free input with unique ids, decompressing
the compressed output with its returned verbatim store restores the input
byte-identically with no missing ids, under every option set including
budget search and force-converge.  Inputs already carrying _cce_original
metadata re-expand through the store instead, and unknown ids there are
reported missing, refuting the unconditional claim. -/
theorem c1_round_trip (msgs : List Message) (opts : CompressOptions)
    (hfree : ∀ m ∈ msgs, m.prov = none)
    (hnd : (msgs.map Message.id).Nodup) :
    (uncompress (compress msgs opts).messages
        (lookupVerbatim (compress msgs opts).verbatim)).messages = msgs
      ∧ (uncompress (compress msgs opts).messages
        (lookupVerbatim (compress msgs opts).verbatim)).missingIds = [] := by
  rcases compress_structure msgs opts with ⟨hm, hv, _⟩ | ⟨w, hm, hv, _⟩ | ⟨w, B, _, hm, hv, _⟩
  · rw [hm, hv]
    apply restore_of_conditions msgs hnd msgs (lookupVerbatim [])
      (flatMap_coveredIds_free msgs hfree)
    · intro m hmem _
      exact hmem
    · intro m hmem p hp
      rw [hfree m hmem] at hp
      cases hp
  · rw [hm, hv]
    apply restore_of_conditions msgs hnd _ _
      (pipeMessages_coveredIds msgs opts w hfree)
    · exact pipeMessages_none_mem msgs opts w
    · intro m hmem p hp id2 hid2
      exact pipeMessages_lookup msgs opts w hfree hnd m hmem p hp id2 hid2
  · rw [hm, hv]
    have hFR : forceConvergeRun opts B w (pipeMessages msgs opts w)
        = fcFold opts B
          (sortBy (fun a b => b.2.content.length ≤ a.2.content.length)
            ((pipeMessages msgs opts w).enum.filter
              (fcElig opts (pipeMessages msgs opts w).length w)))
          (pipeMessages msgs opts w, []) := rfl
    rw [hFR]
    have helig0 : ∀ q ∈ sortBy (fun a b => b.2.content.length ≤ a.2.content.length)
        ((pipeMessages msgs opts w).enum.filter
          (fcElig opts (pipeMessages msgs opts w).length w)),
        q.1 < (pipeMessages msgs opts w).length := by
      intro q hq
      have hq2 := (sortBy_perm _ _).mem_iff.mp hq
      exact mem_enum_lt _ q (List.mem_of_mem_filter hq2)
    have hfresh0 : ∀ m ∈ pipeMessages msgs opts w, m.prov = none →
        m.id ∉ (pipeVerbatim msgs opts w ++ ([] : List (String × Message))).map Prod.fst := by
      rw [List.append_nil]
      exact pipeMessages_none_fresh msgs opts w hnd
    have hsome0 : ∀ m ∈ pipeMessages msgs opts w, ∀ p, m.prov = some p →
        ∀ id2 ∈ p.ids,
        ∃ x, (pipeVerbatim msgs opts w ++ ([] : List (String × Message))).lookup id2 = some x
          ∧ msgs.find? (fun m2 => m2.id == id2) = some x := by
      rw [List.append_nil]
      exact pipeMessages_lookup msgs opts w hfree hnd
    obtain ⟨hP1, hP2⟩ := fcFold_roundtrip opts B msgs (pipeVerbatim msgs opts w) hnd
      (sortBy (fun a b => b.2.content.length ≤ a.2.content.length)
        ((pipeMessages msgs opts w).enum.filter
          (fcElig opts (pipeMessages msgs opts w).length w)))
      (pipeMessages msgs opts w, []) helig0
      (pipeMessages_coveredIds msgs opts w hfree)
      (pipeMessages_none_mem msgs opts w) hfresh0 hsome0
    apply restore_of_conditions msgs hnd _ _ ?_ hP1
    · intro m hmem p hp id2 hid2
      exact hP2 m hmem p hp id2 hid2
    · rw [(fcFold_covered opts B _ _).1]
      exact pipeMessages_coveredIds msgs opts w hfree

/-- C1 witness: the round trip instantiated at the merging pair. -/
theorem c1_round_trip_witness :
    (uncompress (compress pairMsgs optsRw0).messages
        (lookupVerbatim (compress pairMsgs optsRw0).verbatim)).messages = pairMsgs
      ∧ (uncompress (compress pairMsgs optsRw0).messages
        (lookupVerbatim (compress pairMsgs optsRw0).verbatim)).missingIds = [] :=
  c1_round_trip pairMsgs optsRw0 (by decide) (by decide)

/-- C1 counterexample: an input already carrying provenance metadata with
an id the verbatim store cannot resolve decompresses with a non-empty
missing-id report, refuting the claim for arbitrary inputs. -/
theorem c1_counterexample :
    (uncompress (compress [provMsg] {}).messages
      (lookupVerbatim (compress [provMsg] {}).verbatim)).missingIds ≠ [] := by decide
